import Mathlib

/-!
SimpleLRU (src/storage/SimpleLRU.cpp)

A shallow embedding of the byte-budgeted LRU cache of `SimpleLRU.cpp`, at the level of
the pointers the C++ code manipulates: nodes live in a heap addressed by `Addr`, every
node has a raw `prev` pointer and an owning `next` pointer (`std::unique_ptr`), and the
cache holds `_lru_head` (owning), `_lru_tail` (raw), the index `_lru_index`
(a `std::map` from key to node) and the two sizes.

* Executions that C++ leaves undefined (dereference of a null pointer, of a freed node, of
  the `end()` iterator) are results `Except.error`.
* `size_t` arithmetic is arithmetic modulo `2^64` (`add64`, `sub64`); the size of a string
  is the length of its list of chars, and theorems about calls assume that the sizes of
  the two argument strings add up below `2^64`, as they do for every `std::string`.
* The index maps a key to the address of its node. In the C++ code the key of an index
  entry is a reference to the key stored in the node; the key of a node never changes and
  the index entry is erased before the node is freed, so the model keeps a copy.
* The two loops (the eviction loop and the chain of destructors behind a `unique_ptr`) run
  on fuel computed from the state: every round erases a key of the index, respectively
  frees a node.
-/

namespace Afina
namespace Backend

/-! ## Machine words -/

/-- Addition of two `size_t` values. -/
def add64 (a b : Nat) : Nat := (a + b) % 2 ^ 64

/-- Subtraction of two `size_t` values (wraps modulo `2^64`). -/
def sub64 (a b : Nat) : Nat := (a + (2 ^ 64 - b % 2 ^ 64)) % 2 ^ 64

/-! ## Data model -/

/-- A `std::string`, as the list of its chars; the code uses only `size()`, copying and
comparison of keys. -/
abbrev Str := List Char

/-- The address of a heap node; a pointer is an `Option Addr`, `none` being `nullptr`. -/
abbrev Addr := Nat

/-- Modelled from the spec: the node type `lru_node` is declared in `SimpleLRU.h`, which is
not part of the sources. An Entry owns a key and a value; it owns its successor (`next`,
a `std::unique_ptr`) and refers back to its predecessor (`prev`, a raw pointer). The field
order is the one of the aggregate initialiser in `PutIfAbsent`. -/
structure lru_node where
  key : Str
  value : Str
  prev : Option Addr
  next : Option Addr
deriving DecidableEq, Repr

/-- What an execution does where C++ gives it no meaning, or where a loop of the model is
cut off. -/
inductive Fault where
  | null_deref
  | dangling
  | end_iterator
  | out_of_fuel
deriving DecidableEq, Repr

/-- Association lists: the heap (address to node) and the index (key to node address). -/
def aget {α β : Type} [DecidableEq α] : List (α × β) → α → Option β
  | [], _ => none
  | (b, n) :: l, a => if b = a then some n else aget l a

/-- Overwrite the binding of `a`, if there is one. -/
def aset {α β : Type} [DecidableEq α] : List (α × β) → α → β → List (α × β)
  | [], _, _ => []
  | (b, n) :: l, a, m => if b = a then (b, m) :: aset l a m else (b, n) :: aset l a m

/-- Remove the binding of `a`. -/
def adel {α β : Type} [DecidableEq α] : List (α × β) → α → List (α × β)
  | [], _ => []
  | (b, n) :: l, a => if b = a then adel l a else (b, n) :: adel l a

/-- Modelled from the spec: the members of `SimpleLRU` are declared in `SimpleLRU.h`, which
is not part of the sources: `max_size` (immutable capacity, bytes), `current_size` (bytes
occupied), the index from key to entry, `head` (owns the first entry) and `tail`
(non-owning reference to the last entry). `mem` is the heap the nodes are allocated in. -/
structure SimpleLRU where
  max_size : Nat
  current_size : Nat
  lru_index : List (Str × Addr)
  lru_head : Option Addr
  lru_tail : Option Addr
  mem : List (Addr × lru_node)
deriving DecidableEq, Repr

/-- Modelled from the spec: the constructor `new(max_size)` is defined in `SimpleLRU.h`,
which is not part of the sources; it gives an empty cache of the given capacity. -/
def SimpleLRU.new (max_size : Nat) : SimpleLRU :=
  { max_size := max_size, current_size := 0, lru_index := [], lru_head := none,
    lru_tail := none, mem := [] }

/-! ## Pointers -/

/-- The node `p->`. -/
def deref (s : SimpleLRU) (p : Option Addr) : Except Fault (Addr × lru_node) :=
  match p with
  | none => .error .null_deref
  | some a =>
    match aget s.mem a with
    | none => .error .dangling
    | some n => .ok (a, n)

/-- Read of `p->key`. -/
def getKey (s : SimpleLRU) (p : Option Addr) : Except Fault Str :=
  match deref s p with
  | .error e => .error e
  | .ok (_, n) => .ok n.key

/-- Read of `p->value`. -/
def getValue (s : SimpleLRU) (p : Option Addr) : Except Fault Str :=
  match deref s p with
  | .error e => .error e
  | .ok (_, n) => .ok n.value

/-- Read of `p->prev`. -/
def getPrev (s : SimpleLRU) (p : Option Addr) : Except Fault (Option Addr) :=
  match deref s p with
  | .error e => .error e
  | .ok (_, n) => .ok n.prev

/-- Read of the pointer held by `p->next`. -/
def getNext (s : SimpleLRU) (p : Option Addr) : Except Fault (Option Addr) :=
  match deref s p with
  | .error e => .error e
  | .ok (_, n) => .ok n.next

/-- The assignment `p->value = v`. -/
def setValue (s : SimpleLRU) (p : Option Addr) (v : Str) : Except Fault SimpleLRU :=
  match deref s p with
  | .error e => .error e
  | .ok (a, n) => .ok { s with mem := aset s.mem a { n with value := v } }

/-- The assignment `p->prev = x`. -/
def setPrev (s : SimpleLRU) (p : Option Addr) (x : Option Addr) : Except Fault SimpleLRU :=
  match deref s p with
  | .error e => .error e
  | .ok (a, n) => .ok { s with mem := aset s.mem a { n with prev := x } }

/-- Store of a pointer into `p->next`, nothing being destroyed. -/
def setNext (s : SimpleLRU) (p : Option Addr) (x : Option Addr) : Except Fault SimpleLRU :=
  match deref s p with
  | .error e => .error e
  | .ok (a, n) => .ok { s with mem := aset s.mem a { n with next := x } }

/-- The `std::unique_ptr<lru_node>` objects of the program: `_lru_head` and the `next`
member of the node `p->`. -/
inductive UPtr where
  | head
  | next (p : Option Addr)
deriving DecidableEq, Repr

/-- The pointer a `unique_ptr` holds (`get()`). -/
def UPtr.read (s : SimpleLRU) : UPtr → Except Fault (Option Addr)
  | .head => .ok s.lru_head
  | .next p => getNext s p

/-- Store of a pointer into a `unique_ptr`, nothing being destroyed. -/
def UPtr.write (s : SimpleLRU) : UPtr → Option Addr → Except Fault SimpleLRU
  | .head, x => .ok { s with lru_head := x }
  | .next p, x => setNext s p x

/-- The statement `delete p`: the destructor of the node destroys its `next` member, which
deletes the node that one owns, and so on; then the node is freed. Every step frees a
node, so `fuel` = number of allocated nodes is enough. -/
def destroy : Nat → SimpleLRU → Option Addr → Except Fault SimpleLRU
  | _, s, none => .ok s
  | 0, s, some a =>
    match aget s.mem a with
    | none => .error .dangling
    | some _ => .error .out_of_fuel
  | fuel + 1, s, some a =>
    match aget s.mem a with
    | none => .error .dangling
    | some n => destroy fuel { s with mem := adel s.mem a } n.next

/-- Deletion of the node a `unique_ptr` held. -/
def delete (s : SimpleLRU) (p : Option Addr) : Except Fault SimpleLRU :=
  destroy s.mem.length s p

/-- The call `u.reset(p)`: `u` takes `p`, then the node it held is deleted. -/
def reset (s : SimpleLRU) (u : UPtr) (p : Option Addr) : Except Fault SimpleLRU :=
  match UPtr.read s u with
  | .error e => .error e
  | .ok old =>
    match UPtr.write s u p with
    | .error e => .error e
    | .ok s1 => delete s1 old

/-- The call `u.release()`: `u` is left null and the pointer it held is returned. -/
def release (s : SimpleLRU) (u : UPtr) : Except Fault (Option Addr × SimpleLRU) :=
  match UPtr.read s u with
  | .error e => .error e
  | .ok p =>
    match UPtr.write s u none with
    | .error e => .error e
    | .ok s1 => .ok (p, s1)

/-- The assignment `dst = std::move(src)`, which is `dst.reset(src.release())`. -/
def moveAssign (s : SimpleLRU) (dst src : UPtr) : Except Fault SimpleLRU :=
  match release s src with
  | .error e => .error e
  | .ok (p, s1) => reset s1 dst p

/-- The call `std::swap(x, y)` on two `unique_ptr`s. -/
def swap (s : SimpleLRU) (x y : UPtr) : Except Fault SimpleLRU :=
  match UPtr.read s x with
  | .error e => .error e
  | .ok px =>
    match UPtr.read s y with
    | .error e => .error e
    | .ok py =>
      match UPtr.write s x py with
      | .error e => .error e
      | .ok s1 => UPtr.write s1 y px

/-- An address `new` can return: one that is not allocated (and not null). -/
def fresh (h : List (Addr × lru_node)) : Addr :=
  (h.map Prod.fst).foldr max 0 + 1

/-- The expression `new lru_node{...}`. -/
def alloc (s : SimpleLRU) (n : lru_node) : Addr × SimpleLRU :=
  (fresh s.mem, { s with mem := (fresh s.mem, n) :: s.mem })

/-- The call `_lru_index.emplace(key, node)`: no effect when the key is there already. -/
def emplace (idx : List (Str × Addr)) (key : Str) (node : Addr) : List (Str × Addr) :=
  match aget idx key with
  | some _ => idx
  | none => (key, node) :: idx

/-! ## The operations of `SimpleLRU.cpp` -/

/-- Translation of `SimpleLRU::Delete` (SimpleLRU.cpp, lines 122-162). -/
def Delete (s : SimpleLRU) (key : Str) : Except Fault (Bool × SimpleLRU) :=
  match aget s.lru_index key with
  | none => .ok (false, s)
  | some a => do
    let node := some a
    let s := { s with lru_index := adel s.lru_index key }
    let v ← getValue s node
    let k ← getKey s node
    let s := { s with current_size := sub64 s.current_size (add64 v.length k.length) }
    let hn ← getNext s s.lru_head
    if hn = none then do
      let s ← reset s .head none
      pure (true, { s with lru_tail := none })
    else do
      let np ← getPrev s node
      if np = none then do
        let (new_head, s) ← release s (.next s.lru_head)
        let s ← setPrev s new_head none
        let s ← reset s (.next s.lru_head) none
        let old_head := s.lru_head
        let s := { s with lru_head := new_head }
        let s ← delete s old_head
        pure (true, s)
      else do
        let nn ← getNext s node
        if nn = none then do
          let new_tail ← getPrev s s.lru_tail
          let s ← reset s (.next new_tail) none
          pure (true, { s with lru_tail := new_tail })
        else do
          let prev ← getPrev s node
          let nn ← getNext s node
          let s ← setPrev s nn prev
          let (tmp_ptr, s) ← release s (.next node)
          let s ← reset s (.next node) none
          let s ← reset s (.next prev) tmp_ptr
          pure (true, s)

/-- Translation of `SimpleLRU::DeleteLruTail` (lines 15-20). -/
def DeleteLruTail (s : SimpleLRU) : Except Fault (Bool × SimpleLRU) :=
  if s.lru_tail = none then .ok (false, s)
  else do
    let k ← getKey s s.lru_tail
    Delete s k

/-- The loop of `SimpleLRU::ProvideSpace` (lines 23-28); `fuel` bounds the number of calls
of `DeleteLruTail`. -/
def ProvideSpace_loop : Nat → SimpleLRU → Nat → Except Fault (Bool × SimpleLRU)
  | fuel, s, space_required =>
    if sub64 s.max_size s.current_size < space_required then
      match fuel with
      | 0 => .error .out_of_fuel
      | fuel + 1 =>
        match DeleteLruTail s with
        | .error e => .error e
        | .ok (false, s1) => .ok (false, s1)
        | .ok (true, s1) => ProvideSpace_loop fuel s1 space_required
    else .ok (true, s)

/-- Translation of `SimpleLRU::ProvideSpace` (lines 22-29). A call of `DeleteLruTail` that
returns true has erased a key of the index, so one call more than the index has keys is
enough for the loop. -/
def ProvideSpace (s : SimpleLRU) (space_required : Nat) : Except Fault (Bool × SimpleLRU) :=
  ProvideSpace_loop (s.lru_index.length + 1) s space_required

/-- A call whose `bool` result the caller does not look at: the state it leaves. -/
def discard (r : Except Fault (Bool × SimpleLRU)) : Except Fault SimpleLRU :=
  match r with
  | .error e => .error e
  | .ok (_, s) => .ok s

/-- Translation of `SimpleLRU::MoveNodeToHead` (lines 31-53). -/
def MoveNodeToHead (s : SimpleLRU) (key : Str) : Except Fault (Bool × SimpleLRU) :=
  match aget s.lru_index key with
  | none => .error .end_iterator
  | some a => do
    let node := some a
    let np ← getPrev s node
    if np = none then pure (true, s)
    else do
      let nn ← getNext s node
      if nn = none then do
        let prev ← getPrev s node
        let s ← setPrev s s.lru_head node
        let s := { s with lru_tail := prev }
        let s ← moveAssign s (.next node) .head
        let s ← moveAssign s .head (.next s.lru_tail)
        let s ← reset s (.next s.lru_tail) none
        let s ← setPrev s node none
        pure (true, s)
      else do
        let prev ← getPrev s node
        let nn ← getNext s node
        let s ← setPrev s nn prev
        let s ← swap s .head (.next prev)
        let s ← swap s (.next prev) (.next node)
        let s ← setPrev s node none
        let nn ← getNext s node
        let s ← setPrev s nn node
        pure (true, s)

/-- Translation of `SimpleLRU::PutIfAbsent` (lines 78-101). -/
def PutIfAbsent (s : SimpleLRU) (key value : Str) : Except Fault (Bool × SimpleLRU) :=
  match aget s.lru_index key with
  | some _ => .ok (false, s)
  | none =>
    let node_size := add64 key.length value.length
    if node_size > s.max_size then .ok (false, s)
    else do
      let s ← (if sub64 s.max_size s.current_size < node_size then
        discard (ProvideSpace s node_size) else .ok s)
      let (old_head, s) ← release s .head
      let (node, s) := alloc s { key := key, value := value, prev := none, next := old_head }
      let s := { s with current_size := add64 s.current_size node_size }
      let s := { s with lru_index := emplace s.lru_index key node }
      let s ← reset s .head (some node)
      let nn ← getNext s (some node)
      if nn = none then pure (true, { s with lru_tail := some node })
      else do
        let s ← setPrev s nn s.lru_head
        pure (true, s)

/-- Translation of `SimpleLRU::Put` (lines 56-75). -/
def Put (s : SimpleLRU) (key value : Str) : Except Fault (Bool × SimpleLRU) :=
  match aget s.lru_index key with
  | some _ =>
    let node_size := add64 key.length value.length
    if node_size > s.max_size then .ok (false, s)
    else do
      let s ← discard (MoveNodeToHead s key)
      let old ← getValue s s.lru_head
      let s ← (if old.length < value.length then
        discard (ProvideSpace s (sub64 value.length old.length)) else .ok s)
      let old ← getValue s s.lru_head
      let s := { s with current_size := sub64 s.current_size (sub64 old.length value.length) }
      let s ← setValue s s.lru_head value
      pure (true, s)
  | none => PutIfAbsent s key value

/-- Translation of `SimpleLRU::Set` (lines 104-119). -/
def Set (s : SimpleLRU) (key value : Str) : Except Fault (Bool × SimpleLRU) :=
  match aget s.lru_index key with
  | none => .ok (false, s)
  | some _ =>
    if value.length > s.max_size then .ok (false, s)
    else do
      let s ← discard (MoveNodeToHead s key)
      let old ← getValue s s.lru_head
      let s ← (if old.length < value.length then
        discard (ProvideSpace s (sub64 value.length old.length)) else .ok s)
      let old ← getValue s s.lru_head
      let s := { s with current_size := sub64 s.current_size (sub64 old.length value.length) }
      let s ← setValue s s.lru_head value
      pure (true, s)

/-- Translation of `SimpleLRU::Get` (lines 165-174); `value` is the caller's out
parameter, returned with the result. -/
def Get (s : SimpleLRU) (key : Str) (value : Str) : Except Fault (Bool × Str × SimpleLRU) :=
  match aget s.lru_index key with
  | none => .ok (false, value, s)
  | some _ => do
    let s ← discard (MoveNodeToHead s key)
    let v ← getValue s s.lru_head
    pure (true, v, s)

/-! ## Observations -/

/-- The entries met by following `next` from a pointer. -/
def walk : Nat → List (Addr × lru_node) → Option Addr → List (Str × Str)
  | 0, _, _ => []
  | _ + 1, _, none => []
  | fuel + 1, h, some a =>
    match aget h a with
    | none => []
    | some n => (n.key, n.value) :: walk fuel h n.next

/-- The recency list: the entries from `_lru_head`, most recently used first. -/
def entries (s : SimpleLRU) : List (Str × Str) :=
  walk s.mem.length s.mem s.lru_head

/-- The keys of the index. -/
def indexKeys (s : SimpleLRU) : List Str :=
  s.lru_index.map Prod.fst

/-! ## The recency list a state represents, calls and scenarios -/

/-- One entry of the recency list, with the address of its node. -/
structure Cell where
  addr : Addr
  key : Str
  value : Str
deriving DecidableEq, Repr

/-- The size of an entry: `len(key) + len(value)`. -/
def Cell.size (c : Cell) : Nat := c.key.length + c.value.length

/-- The total size of a list of entries. -/
def total (L : List Cell) : Nat := (L.map Cell.size).sum

/-- The address of the first cell, or `q` for no cell. -/
def firstA (xs : List Cell) (q : Option Addr) : Option Addr :=
  match xs with
  | [] => q
  | c :: _ => some c.addr

/-- The address of the last cell, or `p` for no cell. -/
def lastA (p : Option Addr) : List Cell → Option Addr
  | [] => p
  | c :: xs => lastA (some c.addr) xs

/-- The heap holds the cells `xs` as a doubly linked segment: the first node has
`prev = p`, the last one `next = q`, and neighbours point to each other. -/
def Seg (h : List (Addr × lru_node)) : Option Addr → List Cell → Option Addr → Prop
  | _, [], _ => True
  | p, c :: xs, q =>
    aget h c.addr = some { key := c.key, value := c.value, prev := p, next := firstA xs q } ∧
      Seg h (some c.addr) xs q

/-- The representation invariant: the state `s` holds exactly the recency list `L`. -/
structure Rep (s : SimpleLRU) (L : List Cell) : Prop where
  seg : Seg s.mem none L none
  head : s.lru_head = firstA L none
  tail : s.lru_tail = lastA none L
  nodup_addr : (L.map Cell.addr).Nodup
  nodup_key : (L.map Cell.key).Nodup
  index : ∀ k a, aget s.lru_index k = some a ↔ ∃ c ∈ L, c.key = k ∧ c.addr = a
  index_nodup : (s.lru_index.map Prod.fst).Nodup
  size : s.current_size = total L
  cap : s.current_size ≤ s.max_size
  word : s.max_size < 2 ^ 64

/-- A well-formed cache state: one that represents some recency list. -/
def WellFormed (s : SimpleLRU) : Prop := ∃ L, Rep s L

/-- No cell of `xs` lives at the address `a`. -/
def Away (a : Addr) (xs : List Cell) : Prop := ∀ c ∈ xs, ¬ c.addr = a

/-- The cells live at pairwise different addresses. -/
def Sep : List Cell → Prop
  | [] => True
  | c :: xs => Away c.addr xs ∧ Sep xs

/-- The longest prefix of a list of cells whose total size is within the budget. -/
def fit (budget : Nat) : List Cell → List Cell
  | [] => []
  | c :: xs => if c.size ≤ budget then c :: fit (budget - c.size) xs else []

/-- The key and the value of a cell. -/
def Cell.kv (c : Cell) : Str × Str := (c.key, c.value)

/-- A call of one of the five public operations. -/
inductive Call where
  | Put (key value : Str)
  | PutIfAbsent (key value : Str)
  | Set (key value : Str)
  | Delete (key : Str)
  | Get (key : Str)
deriving DecidableEq, Repr

/-- The result of a call: the returned `bool`, the caller's out value after the call
(only `Get` writes it) and the state. -/
def call (s : SimpleLRU) (c : Call) (out : Str) : Except Fault (Bool × Str × SimpleLRU) :=
  match c with
  | .Put k v =>
    match Put s k v with
    | .error e => .error e
    | .ok (b, s1) => .ok (b, out, s1)
  | .PutIfAbsent k v =>
    match PutIfAbsent s k v with
    | .error e => .error e
    | .ok (b, s1) => .ok (b, out, s1)
  | .Set k v =>
    match Set s k v with
    | .error e => .error e
    | .ok (b, s1) => .ok (b, out, s1)
  | .Delete k =>
    match Delete s k with
    | .error e => .error e
    | .ok (b, s1) => .ok (b, out, s1)
  | .Get k => Get s k out

/-- A sequence of calls, one after the other; the results and the last state. -/
def run (s : SimpleLRU) : List Call → Except Fault (List Bool × SimpleLRU)
  | [] => .ok ([], s)
  | c :: cs =>
    match call s c [] with
    | .error e => .error e
    | .ok (b, _, s1) =>
      match run s1 cs with
      | .error e => .error e
      | .ok (bs, s2) => .ok (b :: bs, s2)


/-- The total size of a list of key/value pairs. -/
def kvTotal (l : List (Str × Str)) : Nat := (l.map fun e => e.1.length + e.2.length).sum

/-- The arguments of a call are strings whose sizes add up within a `size_t`. -/
def Call.wordSized : Call → Prop
  | .Put k v => k.length + v.length < 2 ^ 64
  | .PutIfAbsent k v => k.length + v.length < 2 ^ 64
  | .Set k v => k.length + v.length < 2 ^ 64
  | .Delete _ => True
  | .Get _ => True

/-- The cache of capacity 10 after `Put("a","1")`. -/
def after1 : SimpleLRU :=
  { max_size := 10, current_size := 2,
    lru_index := [(['a'], 1)],
    lru_head := some 1, lru_tail := some 1,
    mem := [(1, { key := ['a'], value := ['1'], prev := none, next := none })] }

/-- The cache of capacity 10 after `Put` of a, b. -/
def after2 : SimpleLRU :=
  { max_size := 10, current_size := 4,
    lru_index := [(['b'], 2), (['a'], 1)],
    lru_head := some 2, lru_tail := some 1,
    mem := [(2, { key := ['b'], value := ['2'], prev := none, next := some 1 }),
      (1, { key := ['a'], value := ['1'], prev := some 2, next := none })] }

/-- The cache of capacity 10 after `Put` of a, b, c. -/
def after3 : SimpleLRU :=
  { max_size := 10, current_size := 6,
    lru_index := [(['c'], 3), (['b'], 2), (['a'], 1)],
    lru_head := some 3, lru_tail := some 1,
    mem := [(3, { key := ['c'], value := ['3'], prev := none, next := some 2 }),
      (2, { key := ['b'], value := ['2'], prev := some 3, next := some 1 }),
      (1, { key := ['a'], value := ['1'], prev := some 2, next := none })] }

/-- The cache of capacity 10 after `Put` of a, b, c, d. -/
def after4 : SimpleLRU :=
  { max_size := 10, current_size := 8,
    lru_index := [(['d'], 4), (['c'], 3), (['b'], 2), (['a'], 1)],
    lru_head := some 4, lru_tail := some 1,
    mem := [(4, { key := ['d'], value := ['4'], prev := none, next := some 3 }),
      (3, { key := ['c'], value := ['3'], prev := some 4, next := some 2 }),
      (2, { key := ['b'], value := ['2'], prev := some 3, next := some 1 }),
      (1, { key := ['a'], value := ['1'], prev := some 2, next := none })] }

/-- The cache of capacity 10 after `Put` of a, b, c, d, e: it is full. -/
def after5 : SimpleLRU :=
  { max_size := 10, current_size := 10,
    lru_index := [(['e'], 5), (['d'], 4), (['c'], 3), (['b'], 2), (['a'], 1)],
    lru_head := some 5, lru_tail := some 1,
    mem := [(5, { key := ['e'], value := ['5'], prev := none, next := some 4 }),
      (4, { key := ['d'], value := ['4'], prev := some 5, next := some 3 }),
      (3, { key := ['c'], value := ['3'], prev := some 4, next := some 2 }),
      (2, { key := ['b'], value := ['2'], prev := some 3, next := some 1 }),
      (1, { key := ['a'], value := ['1'], prev := some 2, next := none })] }

/-- The cache `after5` after `Put("f","6")`: a has been evicted. -/
def after6 : SimpleLRU :=
  { max_size := 10, current_size := 10,
    lru_index := [(['f'], 6), (['e'], 5), (['d'], 4), (['c'], 3), (['b'], 2)],
    lru_head := some 6, lru_tail := some 2,
    mem := [(6, { key := ['f'], value := ['6'], prev := none, next := some 5 }),
      (5, { key := ['e'], value := ['5'], prev := some 6, next := some 4 }),
      (4, { key := ['d'], value := ['4'], prev := some 5, next := some 3 }),
      (3, { key := ['c'], value := ['3'], prev := some 4, next := some 2 }),
      (2, { key := ['b'], value := ['2'], prev := some 3, next := none })] }

/-- The cache `after6` after `Get("b")`: b is the head. -/
def after7 : SimpleLRU :=
  { max_size := 10, current_size := 10,
    lru_index := [(['f'], 6), (['e'], 5), (['d'], 4), (['c'], 3), (['b'], 2)],
    lru_head := some 2, lru_tail := some 3,
    mem := [(6, { key := ['f'], value := ['6'], prev := some 2, next := some 5 }),
      (5, { key := ['e'], value := ['5'], prev := some 6, next := some 4 }),
      (4, { key := ['d'], value := ['4'], prev := some 5, next := some 3 }),
      (3, { key := ['c'], value := ['3'], prev := some 4, next := none }),
      (2, { key := ['b'], value := ['2'], prev := none, next := some 6 })] }

/-- The cache `after7` after `Put("g","7")`: c has been evicted. -/
def after8 : SimpleLRU :=
  { max_size := 10, current_size := 10,
    lru_index := [(['g'], 7), (['f'], 6), (['e'], 5), (['d'], 4), (['b'], 2)],
    lru_head := some 7, lru_tail := some 4,
    mem := [(7, { key := ['g'], value := ['7'], prev := none, next := some 2 }),
      (6, { key := ['f'], value := ['6'], prev := some 2, next := some 5 }),
      (5, { key := ['e'], value := ['5'], prev := some 6, next := some 4 }),
      (4, { key := ['d'], value := ['4'], prev := some 5, next := none }),
      (2, { key := ['b'], value := ['2'], prev := some 7, next := some 6 })] }

/-- The cache `after1` after `Put("a","123")`: the only entry has grown. -/
def grown1 : SimpleLRU :=
  { max_size := 10, current_size := 4,
    lru_index := [(['a'], 1)],
    lru_head := some 1, lru_tail := some 1,
    mem := [(1, { key := ['a'], value := ['1', '2', '3'], prev := none, next := none })] }

/-- The cache of capacity 3 after `Put("a","b")`. -/
def tiny1 : SimpleLRU :=
  { max_size := 3, current_size := 2,
    lru_index := [(['a'], 1)],
    lru_head := some 1, lru_tail := some 1,
    mem := [(1, { key := ['a'], value := ['b'], prev := none, next := none })] }

/-- The cache of capacity 4 after `PutIfAbsent("a","b")`. -/
def small1 : SimpleLRU :=
  { max_size := 4, current_size := 2,
    lru_index := [(['a'], 1)],
    lru_head := some 1, lru_tail := some 1,
    mem := [(1, { key := ['a'], value := ['b'], prev := none, next := none })] }

/-- The cache `small1` after `Put("c","d")`. -/
def small2 : SimpleLRU :=
  { max_size := 4, current_size := 4,
    lru_index := [(['c'], 2), (['a'], 1)],
    lru_head := some 2, lru_tail := some 1,
    mem := [(2, { key := ['c'], value := ['d'], prev := none, next := some 1 }),
      (1, { key := ['a'], value := ['b'], prev := some 2, next := none })] }

/-- The addresses of the nodes met by following `next` from a pointer. -/
def chain : Nat → List (Addr × lru_node) → Option Addr → List Addr
  | 0, _, _ => []
  | _ + 1, _, none => []
  | fuel + 1, h, some a =>
    match aget h a with
    | none => []
    | some n => a :: chain fuel h n.next

/-- The nodes of the recency list: those reached from `_lru_head` by following `next`. -/
def nodes (s : SimpleLRU) : List Addr := chain s.mem.length s.mem s.lru_head

/-- Head, tail and links are consistent: `_lru_head` is null iff `_lru_tail` is null iff
the list is empty; the head node has `prev == nullptr`, the tail node has
`next == nullptr`, `_lru_tail` is the last node reached by following `next` from
`_lru_head`, and every node `e` of the list with a successor has `e.next->prev == &e`. -/
def LinksOk (s : SimpleLRU) : Prop :=
  (s.lru_head = none ↔ s.lru_tail = none) ∧
  (s.lru_head = none ↔ nodes s = []) ∧
  (∀ a, s.lru_head = some a → ∃ n, aget s.mem a = some n ∧ n.prev = none) ∧
  (∀ a, s.lru_tail = some a → ∃ n, aget s.mem a = some n ∧ n.next = none) ∧
  s.lru_tail = (nodes s).getLast? ∧
  ∀ a ∈ nodes s, ∀ n b, aget s.mem a = some n → n.next = some b →
    ∃ m, aget s.mem b = some m ∧ m.prev = some a

/-- The cache of capacity 2 after `Put("a","b")`. -/
def mini1 : SimpleLRU :=
  { max_size := 2, current_size := 2,
    lru_index := [(['a'], 1)],
    lru_head := some 1, lru_tail := some 1,
    mem := [(1, { key := ['a'], value := ['b'], prev := none, next := none })] }

/-- The number of calls of `DeleteLruTail` that return true in the loop of `ProvideSpace`:
the number of entries the loop evicts. -/
def evictions : Nat → SimpleLRU → Nat → Nat
  | fuel, s, space_required =>
    if sub64 s.max_size s.current_size < space_required then
      match fuel with
      | 0 => 0
      | fuel + 1 =>
        match DeleteLruTail s with
        | .error _ => 0
        | .ok (false, _) => 0
        | .ok (true, s1) => 1 + evictions fuel s1 space_required
    else 0

/-! ## Words: the cases without wrap-around -/

theorem add64_eq {a b : Nat} (h : a + b < 2 ^ 64) : add64 a b = a + b := by
  unfold add64; exact Nat.mod_eq_of_lt h

theorem sub64_eq {a b : Nat} (hb : b ≤ a) (ha : a < 2 ^ 64) : sub64 a b = a - b := by
  unfold sub64
  have hb2 : b % 2 ^ 64 = b := Nat.mod_eq_of_lt (by omega)
  rw [hb2]
  have : a + (2 ^ 64 - b) = (a - b) + 2 ^ 64 := by omega
  rw [this, Nat.add_mod_right]
  exact Nat.mod_eq_of_lt (by omega)

theorem sub64_wrap {a b : Nat} (hb : a < b) (hb2 : b < 2 ^ 64) :
    sub64 a b = a + 2 ^ 64 - b := by
  unfold sub64
  have hb3 : b % 2 ^ 64 = b := Nat.mod_eq_of_lt hb2
  rw [hb3]
  have : a + (2 ^ 64 - b) = a + 2 ^ 64 - b := by omega
  rw [this]
  exact Nat.mod_eq_of_lt (by omega)

/-- The update `_current_size -= old - new` in `size_t` arithmetic is exact. -/
theorem sub64_sub64 {cur old new : Nat} (h1 : old ≤ cur) (h2 : cur + new - old < 2 ^ 64)
    (h3 : cur < 2 ^ 64) (h4 : new < 2 ^ 64) :
    sub64 cur (sub64 old new) = cur + new - old := by
  by_cases h : new ≤ old
  · rw [sub64_eq h (by omega), sub64_eq (by omega) h3]; omega
  · have hlt : old < new := by omega
    rw [sub64_wrap hlt h4]
    unfold sub64
    have e1 : (old + 2 ^ 64 - new) % 2 ^ 64 = old + 2 ^ 64 - new :=
      Nat.mod_eq_of_lt (by omega)
    rw [e1]
    have e2 : cur + (2 ^ 64 - (old + 2 ^ 64 - new)) = cur + new - old := by omega
    rw [e2]
    exact Nat.mod_eq_of_lt h2

/-! ## Association lists -/

section assoc
variable {α β : Type} [DecidableEq α]

theorem aget_aset (l : List (α × β)) (a b : α) (m : β) :
    aget (aset l a m) b = if b = a then (aget l a).map (fun _ => m) else aget l b := by
  induction l with
  | nil => simp [aget, aset]
  | cons x l ih =>
    obtain ⟨c, n⟩ := x
    by_cases hca : c = a
    · by_cases hba : b = a
      · subst hba; simp [aget, aset, hca]
      · have hab : ¬ a = b := fun h => hba h.symm
        simp [aget, aset, hca, hba, hab, ih]
    · by_cases hba : b = a
      · subst hba; simpa [aget, aset, hca] using ih
      · simp only [aset, hca, if_false, aget, ih, hba]

theorem aget_adel (l : List (α × β)) (a b : α) :
    aget (adel l a) b = if b = a then none else aget l b := by
  induction l with
  | nil => simp [aget, adel]
  | cons x l ih =>
    obtain ⟨c, n⟩ := x
    by_cases hca : c = a
    · by_cases hba : b = a
      · subst hba; simpa [aget, adel, hca] using ih
      · have hab : ¬ a = b := fun h => hba h.symm
        simp [aget, adel, hca, hba, hab, ih]
    · by_cases hba : b = a
      · subst hba; simpa [aget, adel, hca] using ih
      · simp only [adel, hca, if_false, aget, ih, hba]

theorem aget_cons (l : List (α × β)) (a b : α) (m : β) :
    aget ((a, m) :: l) b = if a = b then some m else aget l b := rfl

theorem aget_isSome_iff (l : List (α × β)) (a : α) :
    (∃ n, aget l a = some n) ↔ a ∈ l.map Prod.fst := by
  induction l with
  | nil => simp [aget]
  | cons x l ih =>
    obtain ⟨c, n⟩ := x
    by_cases hca : c = a
    · simp [aget, hca]
    · have hac : ¬ a = c := fun h => hca h.symm
      simp only [aget, hca, if_false, ih, List.map_cons, List.mem_cons, hac, false_or]

theorem aget_none_iff (l : List (α × β)) (a : α) :
    aget l a = none ↔ a ∉ l.map Prod.fst := by
  rw [← aget_isSome_iff]
  cases aget l a <;> simp

theorem length_aset (l : List (α × β)) (a : α) (m : β) : (aset l a m).length = l.length := by
  induction l with
  | nil => rfl
  | cons x l ih =>
    obtain ⟨c, n⟩ := x
    by_cases hca : c = a <;> simp [aset, hca, ih]

theorem map_fst_aset (l : List (α × β)) (a : α) (m : β) :
    (aset l a m).map Prod.fst = l.map Prod.fst := by
  induction l with
  | nil => rfl
  | cons x l ih =>
    obtain ⟨c, n⟩ := x
    by_cases hca : c = a <;> simp [aset, hca, ih]

theorem adel_sublist (l : List (α × β)) (a : α) : (adel l a).Sublist l := by
  induction l with
  | nil => exact List.Sublist.slnil
  | cons x l ih =>
    obtain ⟨c, n⟩ := x
    by_cases hca : c = a
    · simp only [adel, hca, if_true]; exact List.Sublist.cons _ (hca ▸ ih)
    · simp only [adel, hca, if_false]; exact List.Sublist.cons₂ _ ih

theorem length_pos_of_aget {l : List (α × β)} {a : α} {n : β} (h : aget l a = some n) :
    0 < l.length := by
  cases l with
  | nil => simp [aget] at h
  | cons x l => simp

end assoc

theorem le_foldr_max (l : List Nat) (a : Nat) (h : a ∈ l) : a ≤ l.foldr max 0 := by
  induction l with
  | nil => simp at h
  | cons x l ih =>
    simp only [List.foldr_cons]
    rcases List.mem_cons.1 h with h | h
    · subst h; exact Nat.le_max_left _ _
    · exact Nat.le_trans (ih h) (Nat.le_max_right _ _)

theorem aget_fresh (h : List (Addr × lru_node)) : aget h (fresh h) = none := by
  rw [aget_none_iff]
  intro hm
  have := le_foldr_max _ _ hm
  unfold fresh at this
  omega

/-! ## Segments of the list in the heap -/

@[simp] theorem firstA_nil (q : Option Addr) : firstA [] q = q := rfl
@[simp] theorem firstA_cons (c : Cell) (xs : List Cell) (q : Option Addr) :
    firstA (c :: xs) q = some c.addr := rfl
@[simp] theorem firstA_append (xs ys : List Cell) (q : Option Addr) :
    firstA (xs ++ ys) q = firstA xs (firstA ys q) := by
  cases xs <;> rfl

@[simp] theorem lastA_nil (p : Option Addr) : lastA p [] = p := rfl
@[simp] theorem lastA_cons (p : Option Addr) (c : Cell) (xs : List Cell) :
    lastA p (c :: xs) = lastA (some c.addr) xs := rfl
@[simp] theorem lastA_append (p : Option Addr) (xs ys : List Cell) :
    lastA p (xs ++ ys) = lastA (lastA p xs) ys := by
  induction xs generalizing p with
  | nil => rfl
  | cons c xs ih => simp [ih]

@[simp] theorem Seg_nil (h : List (Addr × lru_node)) (p q : Option Addr) :
    Seg h p [] q ↔ True := Iff.rfl

@[simp] theorem Seg_cons (h : List (Addr × lru_node)) (p q : Option Addr) (c : Cell)
    (xs : List Cell) :
    Seg h p (c :: xs) q ↔
      (aget h c.addr = some { key := c.key, value := c.value, prev := p, next := firstA xs q } ∧
        Seg h (some c.addr) xs q) := Iff.rfl

@[simp] theorem Seg_append (h : List (Addr × lru_node)) (p q : Option Addr)
    (xs ys : List Cell) :
    Seg h p (xs ++ ys) q ↔ (Seg h p xs (firstA ys q) ∧ Seg h (lastA p xs) ys q) := by
  induction xs generalizing p with
  | nil => simp
  | cons c xs ih => simp [ih, and_assoc]

theorem Seg_congr {h g : List (Addr × lru_node)} {p q : Option Addr} {xs : List Cell}
    (hx : ∀ c ∈ xs, aget g c.addr = aget h c.addr) (hs : Seg h p xs q) : Seg g p xs q := by
  induction xs generalizing p with
  | nil => trivial
  | cons c xs ih =>
    refine ⟨?_, ih (fun d hd => hx d (List.mem_cons_of_mem _ hd)) hs.2⟩
    rw [hx c (List.mem_cons_self _ _)]; exact hs.1

@[simp] theorem Away_nil (a : Addr) : Away a [] ↔ True := by simp [Away]

@[simp] theorem Away_cons (a : Addr) (c : Cell) (xs : List Cell) :
    Away a (c :: xs) ↔ ((¬ c.addr = a ∧ ¬ a = c.addr) ∧ Away a xs) := by
  simp only [Away, List.mem_cons, forall_eq_or_imp]
  constructor
  · rintro ⟨h1, h2⟩; exact ⟨⟨h1, fun e => h1 e.symm⟩, h2⟩
  · rintro ⟨⟨h1, _⟩, h2⟩; exact ⟨h1, h2⟩

@[simp] theorem Away_append (a : Addr) (xs ys : List Cell) :
    Away a (xs ++ ys) ↔ (Away a xs ∧ Away a ys) := by
  simp only [Away, List.mem_append]
  constructor
  · intro h; exact ⟨fun c hc => h c (Or.inl hc), fun c hc => h c (Or.inr hc)⟩
  · rintro ⟨h1, h2⟩ c (hc | hc)
    · exact h1 c hc
    · exact h2 c hc

@[simp] theorem Sep_nil : Sep [] ↔ True := Iff.rfl

@[simp] theorem Sep_cons (c : Cell) (xs : List Cell) :
    Sep (c :: xs) ↔ (Away c.addr xs ∧ Sep xs) := Iff.rfl

theorem Sep_iff (L : List Cell) : Sep L ↔ (L.map Cell.addr).Nodup := by
  induction L with
  | nil => simp
  | cons c xs ih =>
    simp only [Sep_cons, ih, List.map_cons, List.nodup_cons, List.mem_map, not_exists, not_and,
      Away]

@[simp] theorem Sep_append_cons (c : Cell) (xs ys : List Cell) :
    Sep (xs ++ c :: ys) ↔ (Away c.addr xs ∧ Away c.addr ys ∧ Sep (xs ++ ys)) := by
  rw [Sep_iff, Sep_iff]
  have hp : (List.map Cell.addr (xs ++ c :: ys)).Perm (List.map Cell.addr (c :: (xs ++ ys))) :=
    List.Perm.map _ List.perm_middle
  rw [hp.nodup_iff, ← Sep_iff, ← Sep_iff, Sep_cons, Away_append, and_assoc]

@[simp] theorem Seg_aset {h : List (Addr × lru_node)} {p q : Option Addr} {xs : List Cell}
    {a : Addr} {n : lru_node} (hx : Away a xs) :
    Seg (aset h a n) p xs q ↔ Seg h p xs q := by
  constructor
  · exact Seg_congr (h := aset h a n) (g := h)
      (fun c hc => by rw [aget_aset, if_neg (hx c hc)])
  · exact Seg_congr (fun c hc => by rw [aget_aset, if_neg (hx c hc)])

@[simp] theorem Seg_adel {h : List (Addr × lru_node)} {p q : Option Addr} {xs : List Cell}
    {a : Addr} (hx : Away a xs) :
    Seg (adel h a) p xs q ↔ Seg h p xs q := by
  constructor
  · exact Seg_congr (h := adel h a) (g := h)
      (fun c hc => by rw [aget_adel, if_neg (hx c hc)])
  · exact Seg_congr (fun c hc => by rw [aget_adel, if_neg (hx c hc)])

@[simp] theorem Seg_alloc {h : List (Addr × lru_node)} {p q : Option Addr} {xs : List Cell}
    {a : Addr} {n : lru_node} (hx : Away a xs) :
    Seg ((a, n) :: h) p xs q ↔ Seg h p xs q := by
  have e : ∀ c ∈ xs, aget ((a, n) :: h) c.addr = aget h c.addr := by
    intro c hc
    rw [aget_cons, if_neg (fun e => hx c hc e.symm)]
  constructor
  · exact Seg_congr (h := (a, n) :: h) (g := h) (fun c hc => (e c hc).symm)
  · exact Seg_congr e

theorem total_perm {L L2 : List Cell} (hp : L2.Perm L) : total L2 = total L := by
  unfold total
  exact (hp.map Cell.size).sum_eq

@[simp] theorem total_nil : total [] = 0 := rfl

@[simp] theorem total_cons (c : Cell) (L : List Cell) : total (c :: L) = c.size + total L := by
  simp [total]

@[simp] theorem total_append (L L2 : List Cell) : total (L ++ L2) = total L + total L2 := by
  simp [total]

theorem Rep.idx {s : SimpleLRU} {L : List Cell} (h : Rep s L) {c : Cell} (hc : c ∈ L) :
    aget s.lru_index c.key = some c.addr :=
  (h.index c.key c.addr).2 ⟨c, hc, rfl, rfl⟩

theorem Rep.sep {s : SimpleLRU} {L : List Cell} (h : Rep s L) : Sep L :=
  (Sep_iff L).2 h.nodup_addr

/-- A state whose list is a rearrangement of the one of a well-formed state, with the same
index and sizes, is well-formed once its pointers are right. -/
theorem Rep.of_perm {s s2 : SimpleLRU} {L L2 : List Cell} (h : Rep s L) (hp : L2.Perm L)
    (hi : s2.lru_index = s.lru_index) (hc : s2.current_size = s.current_size)
    (hm : s2.max_size = s.max_size) (hseg : Seg s2.mem none L2 none)
    (hh : s2.lru_head = firstA L2 none) (ht : s2.lru_tail = lastA none L2) : Rep s2 L2 where
  seg := hseg
  head := hh
  tail := ht
  nodup_addr := ((hp.map Cell.addr).nodup_iff).2 h.nodup_addr
  nodup_key := ((hp.map Cell.key).nodup_iff).2 h.nodup_key
  index := by
    intro k a
    rw [hi, h.index]
    constructor
    · rintro ⟨c, hc, hk⟩; exact ⟨c, hp.symm.subset hc, hk⟩
    · rintro ⟨c, hc, hk⟩; exact ⟨c, hp.subset hc, hk⟩
  index_nodup := by rw [hi]; exact h.index_nodup
  size := by rw [hc, h.size, total_perm hp]
  cap := by rw [hc, hm]; exact h.cap
  word := by rw [hm]; exact h.word

/-! ## Running the statements -/

@[simp] theorem bind_ok {ε α β : Type} (a : α) (f : α → Except ε β) :
    (Except.ok a >>= f) = f a := rfl

@[simp] theorem bind_error {ε α β : Type} (e : ε) (f : α → Except ε β) :
    (Except.error e >>= f) = Except.error e := rfl

@[simp] theorem pure_ok {ε α : Type} (a : α) : (pure a : Except ε α) = Except.ok a := rfl

@[simp] theorem delete_null (s : SimpleLRU) : delete s none = .ok s := by
  unfold delete
  cases s.mem.length <;> rfl

theorem delete_some (s : SimpleLRU) (a : Addr) :
    delete s (some a) =
      match aget s.mem a with
      | none => .error .dangling
      | some n =>
        match n.next with
        | none => .ok { s with mem := adel s.mem a }
        | some b => destroy (s.mem.length - 1) { s with mem := adel s.mem a } (some b) := by
  unfold delete
  cases hg : aget s.mem a with
  | none => cases s.mem.length <;> simp [destroy, hg]
  | some n =>
    have hl := length_pos_of_aget hg
    obtain ⟨f, hf⟩ : ∃ f, s.mem.length = f + 1 := ⟨s.mem.length - 1, by omega⟩
    rw [hf]
    cases hn : n.next with
    | none => cases f <;> simp [destroy, hg, hn]
    | some b => simp [destroy, hg, hn]

/-! ## What the operations do to a well-formed state -/

/-- `MoveNodeToHead` on the key of a resident entry moves that entry to the head and
changes nothing else. -/
theorem MoveNodeToHead_spec (s : SimpleLRU) (pre post : List Cell) (c : Cell)
    (h : Rep s (pre ++ c :: post)) :
    ∃ s2, MoveNodeToHead s c.key = .ok (true, s2) ∧ Rep s2 (c :: (pre ++ post)) ∧
      s2.max_size = s.max_size ∧ s2.current_size = s.current_size ∧
      s2.lru_index = s.lru_index ∧ (pre = [] → s2 = s) := by
  have hidx := h.idx (c := c) (by simp)
  have hperm : (c :: (pre ++ post)).Perm (pre ++ c :: post) := List.perm_middle.symm
  rcases List.eq_nil_or_concat pre with rfl | ⟨pre1, p, hpre⟩
  · have hseg := h.seg
    simp at hseg
    refine ⟨s, ?_, h, rfl, rfl, rfl, fun _ => rfl⟩
    simp [MoveNodeToHead, hidx, getPrev, deref, hseg.1]
  · rw [List.concat_eq_append] at hpre
    subst hpre
    have hseg := h.seg
    have hhead := h.head
    have htail := h.tail
    have hsep := h.sep
    cases post with
    | nil =>
      cases pre1 with
      | nil =>
        simp at hseg hhead hsep htail hperm
        simp only [List.append_assoc, List.cons_append, List.nil_append] at h
        obtain ⟨hp, hc⟩ := hseg
        simp [MoveNodeToHead, hidx, getPrev, getNext, deref, hc, setPrev, swap, UPtr.read,
          UPtr.write, hhead, aget_aset, setNext, hsep, hp, moveAssign, release, reset]
        exact h.of_perm hperm rfl rfl rfl (by simp [aget_aset, hsep, hp, hc]) (by simp)
          (by simp)
      | cons h0 mid =>
        simp at hseg hhead hsep htail hperm
        simp only [List.append_assoc, List.cons_append, List.nil_append] at h
        obtain ⟨hh0, hmid, hp, hc⟩ := hseg
        simp [MoveNodeToHead, hidx, getPrev, getNext, deref, hc, setPrev, swap, UPtr.read,
          UPtr.write, hhead, aget_aset, setNext, hsep, hp, hh0, moveAssign, release, reset]
        exact h.of_perm hperm rfl rfl rfl (by simp [aget_aset, hsep, hp, hc, hh0, hmid]) (by simp)
          (by simp)
    | cons d post =>
      cases pre1 with
      | nil =>
        simp at hseg hhead hsep htail hperm
        simp only [List.append_assoc, List.cons_append, List.nil_append] at h
        obtain ⟨hp, hc, hd, hpost⟩ := hseg
        simp [MoveNodeToHead, hidx, getPrev, getNext, deref, hc, setPrev, swap, UPtr.read,
          UPtr.write, hhead, aget_aset, setNext, hsep, hp, hd]
        exact h.of_perm hperm rfl rfl rfl (by simp [aget_aset, hsep, hp, hc, hd, hpost]) (by simp)
          (by simp [htail])
      | cons h0 mid =>
        simp at hseg hhead hsep htail hperm
        simp only [List.append_assoc, List.cons_append, List.nil_append] at h
        obtain ⟨hh0, hmid, hp, hc, hd, hpost⟩ := hseg
        simp [MoveNodeToHead, hidx, getPrev, getNext, deref, hc, setPrev, swap, UPtr.read,
          UPtr.write, hhead, aget_aset, setNext, hsep, hp, hd, hh0]
        exact h.of_perm hperm rfl rfl rfl (by simp [aget_aset, hsep, hp, hc, hd, hpost, hh0, hmid])
          (by simp) (by simp [htail])

@[simp] theorem firstA_ne_none (xs : List Cell) (a : Addr) :
    firstA xs (some a) = none ↔ False := by
  cases xs <;> simp

@[simp] theorem lastA_ne_none (xs : List Cell) (a : Addr) :
    lastA (some a) xs = none ↔ False := by
  induction xs generalizing a with
  | nil => simp
  | cons c xs ih => simp [ih]

theorem Cell.size_le_total {L : List Cell} {c : Cell} (hc : c ∈ L) : c.size ≤ total L := by
  induction L with
  | nil => simp at hc
  | cons x L ih =>
    rcases List.mem_cons.1 hc with rfl | h
    · simp
    · have := ih h; simp; omega

/-- A state whose list is the one of a well-formed state without one entry, with that key
erased from the index and its size taken off, is well-formed once its pointers are right. -/
theorem Rep.of_remove {s s2 : SimpleLRU} {L L2 : List Cell} {c : Cell}
    (h : Rep s L) (hperm : L.Perm (c :: L2)) (hi : s2.lru_index = adel s.lru_index c.key)
    (hc : s2.current_size = s.current_size - c.size) (hm : s2.max_size = s.max_size)
    (hseg : Seg s2.mem none L2 none) (hh : s2.lru_head = firstA L2 none)
    (ht : s2.lru_tail = lastA none L2) : Rep s2 L2 := by
  have hna := ((hperm.map Cell.addr).nodup_iff).1 h.nodup_addr
  have hnk := ((hperm.map Cell.key).nodup_iff).1 h.nodup_key
  simp only [List.map_cons, List.nodup_cons] at hna hnk
  refine ⟨hseg, hh, ht, hna.2, hnk.2, ?_, ?_, ?_, ?_, ?_⟩
  · intro k a
    rw [hi, aget_adel]
    by_cases hk : k = c.key
    · subst hk
      simp only [if_true]
      constructor
      · intro e; cases e
      · rintro ⟨x, hx, hxk, _⟩
        have hm : x.key ∈ List.map Cell.key L2 := List.mem_map_of_mem _ hx
        rw [hxk] at hm
        exact absurd hm hnk.1
    · rw [if_neg hk, h.index]
      constructor
      · rintro ⟨x, hx, hxk, hxa⟩
        refine ⟨x, ?_, hxk, hxa⟩
        rcases List.mem_cons.1 (hperm.subset hx) with rfl | hx
        · exact absurd hxk.symm hk
        · exact hx
      · rintro ⟨x, hx, hxk, hxa⟩
        exact ⟨x, hperm.symm.subset (List.mem_cons_of_mem _ hx), hxk, hxa⟩
  · rw [hi]
    exact ((adel_sublist s.lru_index c.key).map Prod.fst).nodup h.index_nodup
  · rw [hc, h.size, total_perm hperm]; simp
  · rw [hc, hm]; have := h.cap; omega
  · rw [hm]; exact h.word

/-- `Delete` on the key of a resident entry unlinks and frees that entry. -/
theorem Delete_spec (s : SimpleLRU) (pre post : List Cell) (c : Cell)
    (h : Rep s (pre ++ c :: post)) :
    ∃ s2, Delete s c.key = .ok (true, s2) ∧ Rep s2 (pre ++ post) ∧
      s2.max_size = s.max_size := by
  have hidx := h.idx (c := c) (by simp)
  have hperm : (pre ++ c :: post).Perm (c :: (pre ++ post)) := List.perm_middle
  have hle : c.size ≤ total (pre ++ c :: post) := Cell.size_le_total (by simp)
  have hcap := h.cap
  have hword := h.word
  have hsz : sub64 s.current_size (add64 c.value.length c.key.length) =
      s.current_size - c.size := by
    rw [h.size] at hcap ⊢
    have e : c.value.length + c.key.length = c.size := by unfold Cell.size; omega
    rw [add64_eq (by omega), e, sub64_eq hle (by omega)]
  have hseg := h.seg
  have hhead := h.head
  have htail := h.tail
  have hsep := h.sep
  rcases List.eq_nil_or_concat pre with rfl | ⟨pre1, p, hpre⟩
  · cases post with
    | nil =>
      simp at hseg hhead hsep htail
      simp only [List.append_assoc, List.cons_append, List.nil_append] at hperm h
      simp [Delete, hidx, getValue, getKey, getNext, getPrev, deref, hseg, hhead, reset,
        UPtr.read, UPtr.write, delete_some, hsz]
      exact h.of_remove hperm rfl rfl rfl (by simp) (by simp) (by simp)
    | cons d post =>
      simp at hseg hhead hsep htail
      simp only [List.append_assoc, List.cons_append, List.nil_append] at hperm h
      obtain ⟨hc, hd, hpost⟩ := hseg
      simp [Delete, hidx, getValue, getKey, getNext, getPrev, deref, hc, hd, hhead, reset,
        release, setPrev, setNext, UPtr.read, UPtr.write, delete_some, hsz, aget_aset, hsep]
      refine h.of_remove hperm rfl rfl rfl ?_ ?_ ?_
      · simp [aget_aset, aget_adel, hsep, hc, hd, hpost]
      · simp
      · simp [htail]
  · rw [List.concat_eq_append] at hpre
    subst hpre
    cases post with
    | nil =>
      cases pre1 with
      | nil =>
        simp at hseg hhead hsep htail
        simp only [List.append_assoc, List.cons_append, List.nil_append] at hperm h
        obtain ⟨hp, hc⟩ := hseg
        simp [Delete, hidx, getValue, getKey, getNext, getPrev, deref, hc, hp, hhead, htail, reset,
          release, setPrev, setNext, UPtr.read, UPtr.write, delete_some, hsz, aget_aset, hsep]
        refine h.of_remove hperm rfl rfl rfl ?_ ?_ ?_
        · simp [aget_aset, aget_adel, hsep, hc, hp]
        · simp
        · simp
      | cons h0 mid =>
        simp at hseg hhead hsep htail
        simp only [List.append_assoc, List.cons_append, List.nil_append] at hperm h
        obtain ⟨hh0, hmid, hp, hc⟩ := hseg
        simp [Delete, hidx, getValue, getKey, getNext, getPrev, deref, hc, hp, hh0, hhead, htail,
          reset, release, setPrev, setNext, UPtr.read, UPtr.write, delete_some, hsz, aget_aset,
          hsep]
        refine h.of_remove hperm rfl rfl rfl ?_ ?_ ?_
        · simp [aget_aset, aget_adel, hsep, hc, hp, hh0, hmid]
        · simp
        · simp
    | cons d post =>
      cases pre1 with
      | nil =>
        simp at hseg hhead hsep htail
        simp only [List.append_assoc, List.cons_append, List.nil_append] at hperm h
        obtain ⟨hp, hc, hd, hpost⟩ := hseg
        simp [Delete, hidx, getValue, getKey, getNext, getPrev, deref, hc, hp, hd, hhead, htail,
          reset, release, setPrev, setNext, UPtr.read, UPtr.write, delete_some, hsz, aget_aset,
          hsep]
        refine h.of_remove hperm rfl rfl rfl ?_ ?_ ?_
        · simp [aget_aset, aget_adel, hsep, hc, hp, hd, hpost]
        · simp
        · simp [htail]
      | cons h0 mid =>
        simp at hseg hhead hsep htail
        simp only [List.append_assoc, List.cons_append, List.nil_append] at hperm h
        obtain ⟨hh0, hmid, hp, hc, hd, hpost⟩ := hseg
        simp [Delete, hidx, getValue, getKey, getNext, getPrev, deref, hc, hp, hd, hh0, hhead,
          htail, reset, release, setPrev, setNext, UPtr.read, UPtr.write, delete_some, hsz,
          aget_aset, hsep]
        refine h.of_remove hperm rfl rfl rfl ?_ ?_ ?_
        · simp [aget_aset, aget_adel, hsep, hc, hp, hd, hh0, hmid, hpost]
        · simp
        · simp [htail]

theorem fit_all {b : Nat} {L : List Cell} (h : total L ≤ b) : fit b L = L := by
  induction L generalizing b with
  | nil => rfl
  | cons c xs ih =>
    simp at h
    have h1 : c.size ≤ b := by omega
    simp [fit, h1, ih (b := b - c.size) (by omega)]

theorem fit_snoc {b : Nat} {xs : List Cell} {c : Cell} (h : b < total (xs ++ [c])) :
    fit b (xs ++ [c]) = fit b xs := by
  induction xs generalizing b with
  | nil =>
    simp at h
    simp [fit, h]
  | cons x xs ih =>
    simp at h
    by_cases h1 : x.size ≤ b
    · simp [fit, h1]
      exact ih (by simp; omega)
    · simp [fit, h1]

theorem fit_initial (b : Nat) (L : List Cell) : fit b L <+: L := by
  induction L generalizing b with
  | nil => exact List.prefix_refl _
  | cons c xs ih =>
    by_cases h1 : c.size ≤ b
    · simp [fit, h1]
      exact ih _
    · simp [fit, h1]

theorem total_fit_le (b : Nat) (L : List Cell) : total (fit b L) ≤ b := by
  induction L generalizing b with
  | nil => simp [fit]
  | cons c xs ih =>
    by_cases h1 : c.size ≤ b
    · simp [fit, h1]
      have := ih (b - c.size)
      omega
    · simp [fit, h1]

theorem Rep.length_le {s : SimpleLRU} {L : List Cell} (h : Rep s L) :
    L.length ≤ s.lru_index.length := by
  have hsub : L.map Cell.key ⊆ s.lru_index.map Prod.fst := by
    intro k hk
    obtain ⟨c, hc, rfl⟩ := List.mem_map.1 hk
    exact (aget_isSome_iff _ _).1 ⟨c.addr, h.idx hc⟩
  have := (List.subperm_of_subset h.nodup_key hsub).length_le
  simpa using this

theorem DeleteLruTail_nil {s : SimpleLRU} (h : Rep s []) : DeleteLruTail s = .ok (false, s) := by
  have := h.tail
  simp at this
  simp [DeleteLruTail, this]

theorem DeleteLruTail_snoc {s : SimpleLRU} {xs : List Cell} {c : Cell} (h : Rep s (xs ++ [c])) :
    ∃ s2, DeleteLruTail s = .ok (true, s2) ∧ Rep s2 xs ∧ s2.max_size = s.max_size := by
  have ht := h.tail
  have hseg := h.seg
  simp at ht hseg
  obtain ⟨s2, h1, h2, h3⟩ := Delete_spec s xs [] c h
  refine ⟨s2, ?_, by simpa using h2, h3⟩
  simp [DeleteLruTail, ht, getKey, deref, hseg.2, h1]

theorem ProvideSpace_loop_spec (n : Nat) :
    ∀ (fuel : Nat) (L : List Cell) (s : SimpleLRU), Rep s L → L.length ≤ fuel →
      n ≤ s.max_size →
      ∃ s2, ProvideSpace_loop fuel s n = .ok (true, s2) ∧ Rep s2 (fit (s.max_size - n) L) ∧
        s2.max_size = s.max_size := by
  intro fuel
  induction fuel with
  | zero =>
    intro L s h hl hn
    have : L = [] := by simpa using hl
    subst this
    have hs := h.size
    simp at hs
    refine ⟨s, ?_, by simpa [fit] using h, rfl⟩
    have hw := h.word
    rw [ProvideSpace_loop, hs, sub64_eq (Nat.zero_le _) hw]
    simp; omega
  | succ f ih =>
    intro L s h hl hn
    have hs := h.size
    have hw := h.word
    have hc := h.cap
    rw [ProvideSpace_loop, sub64_eq hc hw]
    by_cases hlt : s.max_size - s.current_size < n
    · rw [if_pos hlt]
      rcases List.eq_nil_or_concat L with rfl | ⟨xs, c, hL⟩
      · simp at hs; omega
      · rw [List.concat_eq_append] at hL
        subst hL
        obtain ⟨s1, h1, h2, h3⟩ := DeleteLruTail_snoc h
        simp only [h1]
        obtain ⟨s2, h4, h5, h6⟩ := ih xs s1 h2 (by simp at hl; omega) (by omega)
        refine ⟨s2, h4, ?_, by omega⟩
        rw [fit_snoc (by omega), ← h3]
        exact h5
    · rw [if_neg hlt]
      refine ⟨s, rfl, ?_, rfl⟩
      rw [fit_all (by omega)]
      exact h

theorem ProvideSpace_spec {s : SimpleLRU} {L : List Cell} (h : Rep s L) {n : Nat}
    (hn : n ≤ s.max_size) :
    ∃ s2, ProvideSpace s n = .ok (true, s2) ∧ Rep s2 (fit (s.max_size - n) L) ∧
      s2.max_size = s.max_size :=
  ProvideSpace_loop_spec n _ L s h (Nat.le_succ_of_le h.length_le) hn

theorem Seg_allocated {h : List (Addr × lru_node)} {p q : Option Addr} {xs : List Cell}
    (hs : Seg h p xs q) {c : Cell} (hc : c ∈ xs) : ∃ n, aget h c.addr = some n := by
  induction xs generalizing p with
  | nil => simp at hc
  | cons x xs ih =>
    rcases List.mem_cons.1 hc with rfl | hc
    · exact ⟨_, hs.1⟩
    · exact ih hs.2 hc

theorem Away_fresh {h : List (Addr × lru_node)} {p q : Option Addr} {xs : List Cell}
    (hs : Seg h p xs q) : Away (fresh h) xs := by
  intro c hc e
  obtain ⟨n, hn⟩ := Seg_allocated hs hc
  rw [e, aget_fresh] at hn
  cases hn

theorem Rep.absent {s : SimpleLRU} {L : List Cell} (h : Rep s L) {k : Str}
    (hk : k ∉ L.map Cell.key) : aget s.lru_index k = none := by
  cases hg : aget s.lru_index k with
  | none => rfl
  | some a =>
    obtain ⟨c, hc, rfl, _⟩ := (h.index k a).1 hg
    exact absurd (List.mem_map_of_mem _ hc) hk

/-- A state whose list is the one of a well-formed state with a new entry in front, with
the key added to the index and the size added, is well-formed once its pointers are right. -/
theorem Rep.of_insert {s s2 : SimpleLRU} {L : List Cell} {a : Addr} {k v : Str}
    (h : Rep s L) (hk : k ∉ L.map Cell.key) (ha : Away a L)
    (hi : s2.lru_index = (k, a) :: s.lru_index)
    (hc : s2.current_size = s.current_size + (k.length + v.length))
    (hm : s2.max_size = s.max_size)
    (hcap : s.current_size + (k.length + v.length) ≤ s.max_size)
    (hseg : Seg s2.mem none (⟨a, k, v⟩ :: L) none)
    (hh : s2.lru_head = some a)
    (ht : s2.lru_tail = lastA (some a) L) : Rep s2 (⟨a, k, v⟩ :: L) := by
  have hno := h.absent hk
  refine ⟨hseg, by simpa using hh, by simpa using ht, ?_, ?_, ?_, ?_, ?_, ?_, ?_⟩
  · exact (Sep_iff _).1 ⟨ha, h.sep⟩
  · simpa using ⟨by simpa using hk, h.nodup_key⟩
  · intro k2 a2
    rw [hi, aget_cons]
    by_cases hk2 : k = k2
    · subst hk2
      simp only [if_true, Option.some.injEq]
      constructor
      · rintro rfl; exact ⟨⟨a, k, v⟩, by simp, rfl, rfl⟩
      · rintro ⟨x, hx, hxk, hxa⟩
        rcases List.mem_cons.1 hx with rfl | hx
        · exact hxa
        · exact absurd (hxk ▸ List.mem_map_of_mem Cell.key hx) hk
    · rw [if_neg hk2, h.index]
      constructor
      · rintro ⟨x, hx, hxk, hxa⟩; exact ⟨x, List.mem_cons_of_mem _ hx, hxk, hxa⟩
      · rintro ⟨x, hx, hxk, hxa⟩
        rcases List.mem_cons.1 hx with rfl | hx
        · exact absurd hxk hk2
        · exact ⟨x, hx, hxk, hxa⟩
  · rw [hi]
    simp only [List.map_cons, List.nodup_cons]
    exact ⟨(aget_none_iff _ _).1 hno, h.index_nodup⟩
  · rw [hc, h.size]; simp [Cell.size]; omega
  · rw [hc, hm]; exact hcap
  · rw [hm]; exact h.word

/-- `PutIfAbsent` of an absent key that fits evicts from the tail what is needed and puts
the new entry in front. -/
theorem PutIfAbsent_spec {s : SimpleLRU} {L : List Cell} (h : Rep s L) {k v : Str}
    (hk : k ∉ L.map Cell.key) (hsz : k.length + v.length ≤ s.max_size) :
    ∃ a s2, PutIfAbsent s k v = .ok (true, s2) ∧
      Rep s2 (⟨a, k, v⟩ :: fit (s.max_size - (k.length + v.length)) L) ∧
      s2.max_size = s.max_size := by
  have hidx := h.absent hk
  have hw := h.word
  have hadd : add64 k.length v.length = k.length + v.length := add64_eq (by omega)
  obtain ⟨s1, hs1, hR1, hm1⟩ : ∃ s1,
      (if sub64 s.max_size s.current_size < k.length + v.length then
          discard (ProvideSpace s (k.length + v.length))
        else .ok s : Except Fault SimpleLRU) = .ok s1 ∧
      Rep s1 (fit (s.max_size - (k.length + v.length)) L) ∧ s1.max_size = s.max_size := by
    rw [sub64_eq h.cap hw]
    by_cases hlt : s.max_size - s.current_size < k.length + v.length
    · obtain ⟨s1, h1, h2, h3⟩ := ProvideSpace_spec h hsz
      exact ⟨s1, by simp [hlt, h1, discard], h2, h3⟩
    · refine ⟨s, by simp [hlt], ?_, rfl⟩
      have hfit : total L ≤ s.max_size - (k.length + v.length) := by
        have := h.size; have := h.cap; omega
      rw [fit_all hfit]
      exact h
  have hk1 : k ∉ (fit (s.max_size - (k.length + v.length)) L).map Cell.key := by
    intro hm
    obtain ⟨c, hc, rfl⟩ := List.mem_map.1 hm
    exact hk (List.mem_map_of_mem _ ((fit_initial _ L).subset hc))
  have hcap1 : s1.current_size + (k.length + v.length) ≤ s1.max_size := by
    have := total_fit_le (s.max_size - (k.length + v.length)) L
    rw [hR1.size, hm1]; omega
  generalize fit (s.max_size - (k.length + v.length)) L = L1 at hR1 hk1
  have hidx1 := hR1.absent hk1
  have hseg := hR1.seg
  have hhead := hR1.head
  have htail := hR1.tail
  have hfr := Away_fresh hseg
  have hadd2 : add64 s1.current_size (k.length + v.length) =
      s1.current_size + (k.length + v.length) := add64_eq (by omega)
  refine ⟨fresh s1.mem, ?_⟩
  have hgt : ¬ (k.length + v.length > s.max_size) := by omega
  simp only [PutIfAbsent, hidx, hadd, hgt, if_false, hs1, bind_ok]
  cases L1 with
  | nil =>
    simp at hhead htail
    simp [release, UPtr.read, UPtr.write, alloc, reset, emplace, hidx1, getNext, deref, aget_cons,
      hhead, hadd2]
    refine ⟨hR1.of_insert hk1 hfr rfl rfl rfl hcap1 ?_ rfl ?_, hm1⟩
    · simp [aget_cons]
    · simp
  | cons d rest =>
    have hfr2 := hfr
    have hsep := hR1.sep
    simp at hhead htail hseg hfr2 hsep
    simp [release, UPtr.read, UPtr.write, alloc, reset, emplace, hidx1, getNext, deref, aget_cons,
      hhead, hadd2, setPrev, hfr2, hseg]
    refine ⟨hR1.of_insert hk1 hfr rfl rfl rfl hcap1 ?_ rfl ?_, hm1⟩
    · simp [aget_cons, aget_aset, hfr2, hseg, hsep]
    · simp [htail]

@[simp] theorem discard_ok (b : Bool) (s : SimpleLRU) : discard (.ok (b, s)) = .ok s := rfl

theorem walk_seg {h : List (Addr × lru_node)} {xs : List Cell} :
    ∀ (fuel : Nat) (p : Option Addr), Seg h p xs none → xs.length ≤ fuel →
      walk fuel h (firstA xs none) = xs.map Cell.kv := by
  induction xs with
  | nil => intro fuel p _ _; cases fuel <;> rfl
  | cons c xs ih =>
    intro fuel p hs hl
    cases fuel with
    | zero => simp at hl
    | succ f =>
      simp at hs hl
      simp [walk, hs.1, Cell.kv]
      exact ih f _ hs.2 hl

theorem Rep.length_le_mem {s : SimpleLRU} {L : List Cell} (h : Rep s L) :
    L.length ≤ s.mem.length := by
  have hsub : L.map Cell.addr ⊆ s.mem.map Prod.fst := by
    intro a ha
    obtain ⟨c, hc, rfl⟩ := List.mem_map.1 ha
    exact (aget_isSome_iff _ _).1 (Seg_allocated h.seg hc)
  have := (List.subperm_of_subset h.nodup_addr hsub).length_le
  simpa using this

theorem Rep.entries {s : SimpleLRU} {L : List Cell} (h : Rep s L) :
    entries s = L.map Cell.kv := by
  unfold Afina.Backend.entries
  rw [h.head]
  exact walk_seg _ none h.seg h.length_le_mem

/-- A state that differs from a well-formed one in the value of the first entry and in the
size only is well-formed. -/
theorem Rep.of_update {s s2 : SimpleLRU} {c : Cell} {R : List Cell} {v : Str}
    (h : Rep s (c :: R)) (hi : s2.lru_index = s.lru_index) (hm : s2.max_size = s.max_size)
    (hh : s2.lru_head = s.lru_head) (ht : s2.lru_tail = s.lru_tail)
    (hmem : s2.mem = aset s.mem c.addr
      { key := c.key, value := v, prev := none, next := firstA R none })
    (hc : s2.current_size = c.key.length + v.length + total R)
    (hcap : c.key.length + v.length + total R ≤ s.max_size) :
    Rep s2 (⟨c.addr, c.key, v⟩ :: R) := by
  have hseg := h.seg
  have hsep := h.sep
  simp at hseg hsep
  refine ⟨?_, ?_, ?_, h.nodup_addr, h.nodup_key, ?_, ?_, ?_, ?_, ?_⟩
  · rw [hmem]; simp [aget_aset, hseg, hsep]
  · rw [hh, h.head]; rfl
  · rw [ht, h.tail]; rfl
  · intro k a
    rw [hi, h.index]
    simp
  · rw [hi]; exact h.index_nodup
  · rw [hc]; simp [Cell.size]
  · rw [hc, hm]; exact hcap
  · rw [hm]; exact h.word

theorem Rep.head_value {s : SimpleLRU} {c : Cell} {R : List Cell} (h : Rep s (c :: R)) :
    getValue s s.lru_head = .ok c.value := by
  have hseg := h.seg
  have hh := h.head
  simp at hseg hh
  simp [getValue, deref, hh, hseg.1]

/-- `Put` on the key of a resident entry with a value that fits moves the entry to the
head, evicts from the tail what the growth needs, and stores the value. -/
theorem Put_present_spec {s : SimpleLRU} {pre post : List Cell} {c : Cell} {v : Str}
    (h : Rep s (pre ++ c :: post)) (hsz : c.key.length + v.length ≤ s.max_size) :
    ∃ s2, Put s c.key v = .ok (true, s2) ∧
      Rep s2 (⟨c.addr, c.key, v⟩ :: fit (s.max_size - (c.key.length + v.length)) (pre ++ post)) ∧
      s2.max_size = s.max_size := by
  have hidx := h.idx (c := c) (by simp)
  have hw := h.word
  have hadd : add64 c.key.length v.length = c.key.length + v.length := add64_eq (by omega)
  have hgt : ¬ (c.key.length + v.length > s.max_size) := by omega
  obtain ⟨s1, hM, hR1, hm1, hc1, -, -⟩ := MoveNodeToHead_spec s pre post c h
  have hv1 := hR1.head_value
  have hsize1 := hR1.size
  have hcap1 := hR1.cap
  simp at hsize1
  obtain ⟨s2, hs2, hR2, hm2⟩ : ∃ s2,
      (if c.value.length < v.length then
          discard (ProvideSpace s1 (sub64 v.length c.value.length))
        else .ok s1 : Except Fault SimpleLRU) = .ok s2 ∧
      Rep s2 (c :: fit (s.max_size - (c.key.length + v.length)) (pre ++ post)) ∧
      s2.max_size = s.max_size := by
    by_cases hlt : c.value.length < v.length
    · have hsub : sub64 v.length c.value.length = v.length - c.value.length :=
        sub64_eq (by omega) (by omega)
      obtain ⟨s2, h1, h2, h3⟩ := ProvideSpace_spec hR1 (n := v.length - c.value.length)
        (by omega)
      refine ⟨s2, by simp [hlt, hsub, h1, discard], ?_, by omega⟩
      have hcs : c.size ≤ s1.max_size - (v.length - c.value.length) := by
        unfold Cell.size; omega
      have he : s1.max_size - (v.length - c.value.length) - c.size =
          s.max_size - (c.key.length + v.length) := by
        unfold Cell.size; omega
      simpa [fit, hcs, he] using h2
    · refine ⟨s1, by simp [hlt], ?_, hm1⟩
      have hfit : total (pre ++ post) ≤ s.max_size - (c.key.length + v.length) := by
        unfold Cell.size at hsize1; simp at hsize1 ⊢; omega
      rw [fit_all hfit]
      exact hR1
  have hv2 := hR2.head_value
  have hsize2 := hR2.size
  have hcap2 := hR2.cap
  have hseg2 := hR2.seg
  have hhead2 := hR2.head
  have htf := total_fit_le (s.max_size - (c.key.length + v.length)) (pre ++ post)
  generalize fit (s.max_size - (c.key.length + v.length)) (pre ++ post) = R at *
  simp at hsize2 hseg2 hhead2
  have hcur : sub64 s2.current_size (sub64 c.value.length v.length) =
      c.key.length + v.length + total R := by
    rw [sub64_sub64 (by unfold Cell.size at hsize2; omega) (by unfold Cell.size at hsize2; omega)
      (by omega) (by omega)]
    unfold Cell.size at hsize2; omega
  simp only [Put, hidx, hadd, hgt, if_false, hM, discard_ok, bind_ok, hv1, hs2, hv2, hcur]
  simp [setValue, deref, hhead2, hseg2]
  exact ⟨hR2.of_update rfl rfl hhead2.symm rfl rfl rfl (by omega), hm2⟩

/-- `Get` on the key of a resident entry moves it to the head and returns its value. -/
theorem Get_spec {s : SimpleLRU} {pre post : List Cell} {c : Cell} (out : Str)
    (h : Rep s (pre ++ c :: post)) :
    ∃ s2, Get s c.key out = .ok (true, c.value, s2) ∧ Rep s2 (c :: (pre ++ post)) ∧
      s2.max_size = s.max_size ∧ s2.current_size = s.current_size ∧
      s2.lru_index = s.lru_index ∧ (pre = [] → s2 = s) := by
  have hidx := h.idx (c := c) (by simp)
  obtain ⟨s1, hM, hR1, hrest⟩ := MoveNodeToHead_spec s pre post c h
  refine ⟨s1, ?_, hR1, hrest⟩
  simp [Get, hidx, hM, hR1.head_value]

theorem kvTotal_map (L : List Cell) : kvTotal (L.map Cell.kv) = total L := by
  induction L with
  | nil => rfl
  | cons c xs ih =>
    simp only [List.map_cons, total_cons, ← ih]
    simp [kvTotal, Cell.kv, Cell.size]

theorem Rep.split {s : SimpleLRU} {L : List Cell} (h : Rep s L) {k : Str} {a : Addr}
    (hk : aget s.lru_index k = some a) :
    ∃ pre c post, L = pre ++ c :: post ∧ c.key = k ∧ c.addr = a := by
  obtain ⟨c, hc, hck, hca⟩ := (h.index k a).1 hk
  obtain ⟨pre, post, rfl⟩ := List.append_of_mem hc
  exact ⟨pre, c, post, rfl, hck, hca⟩

theorem Rep.new {m : Nat} (hm : m < 2 ^ 64) : Rep (SimpleLRU.new m) [] := by
  refine ⟨trivial, rfl, rfl, List.nodup_nil, List.nodup_nil, ?_, List.nodup_nil, rfl,
    Nat.zero_le _, hm⟩
  intro k a
  simp [SimpleLRU.new, aget]

theorem filter_key_absent {L : List Cell} {k : Str} (hk : k ∉ L.map Cell.key) :
    L.filter (fun c => decide (c.key ≠ k)) = L := by
  rw [List.filter_eq_self]
  intro c hc
  simp only [decide_eq_true_eq]
  intro e
  exact hk (e ▸ List.mem_map_of_mem _ hc)

theorem filter_key_split {pre post : List Cell} {c : Cell}
    (hn : ((pre ++ c :: post).map Cell.key).Nodup) :
    (pre ++ c :: post).filter (fun x => decide (x.key ≠ c.key)) = pre ++ post := by
  have hp : (pre ++ c :: post).Perm (c :: (pre ++ post)) := List.perm_middle
  have hn2 := ((hp.map Cell.key).nodup_iff).1 hn
  simp only [List.map_cons, List.nodup_cons, List.map_append, List.mem_append] at hn2
  have h1 : c.key ∉ pre.map Cell.key := fun h => hn2.1 (Or.inl h)
  have h2 : c.key ∉ post.map Cell.key := fun h => hn2.1 (Or.inr h)
  rw [List.filter_append, List.filter_cons, filter_key_absent h1, filter_key_absent h2]
  simp

theorem fit_longest {b : Nat} {L P : List Cell} (hp : P <+: L) (ht : total P ≤ b) :
    P.length ≤ (fit b L).length := by
  induction L generalizing b P with
  | nil =>
    have : P = [] := List.prefix_nil.1 hp
    subst this; simp
  | cons c xs ih =>
    rcases List.prefix_cons_iff.1 hp with rfl | ⟨t, rfl, ht2⟩
    · simp
    · simp at ht
      have h1 : c.size ≤ b := by omega
      simp [fit, h1]
      exact ih ht2 (by omega)

/-- `Put` of an entry that fits: the entry is in front, followed by the longest prefix of
the other entries that fits beside it. -/
theorem Put_spec {s : SimpleLRU} {L : List Cell} (h : Rep s L) {k v : Str}
    (hfit : k.length + v.length ≤ s.max_size) :
    ∃ a s2, Put s k v = .ok (true, s2) ∧
      Rep s2 (⟨a, k, v⟩ :: fit (s.max_size - (k.length + v.length))
        (L.filter (fun c => decide (c.key ≠ k)))) ∧
      s2.max_size = s.max_size := by
  cases hidx : aget s.lru_index k with
  | none =>
    have hk : k ∉ L.map Cell.key := by
      intro hm
      obtain ⟨c, hc, rfl⟩ := List.mem_map.1 hm
      rw [h.idx hc] at hidx
      cases hidx
    obtain ⟨a, s2, h1, h2, h3⟩ := PutIfAbsent_spec h hk hfit
    refine ⟨a, s2, ?_, ?_, h3⟩
    · simp only [Put, hidx, h1]
    · rw [filter_key_absent hk]; exact h2
  | some a =>
    obtain ⟨pre, c, post, rfl, rfl, rfl⟩ := h.split hidx
    obtain ⟨s2, h1, h2, h3⟩ := Put_present_spec h hfit
    refine ⟨c.addr, s2, h1, ?_, h3⟩
    rw [filter_key_split h.nodup_key]; exact h2

/-- `Put` of an entry that does not fit returns false and changes nothing. -/
theorem Put_oversize (s : SimpleLRU) {k v : Str} (hword : k.length + v.length < 2 ^ 64)
    (hbig : s.max_size < k.length + v.length) : Put s k v = .ok (false, s) := by
  have hadd : add64 k.length v.length = k.length + v.length := add64_eq hword
  cases hidx : aget s.lru_index k <;> simp [Put, PutIfAbsent, hidx, hadd, hbig]

/-- `Set` on a resident key with a value that passes the check of `Set` but does not fit
beside the key: the entry itself is evicted and the null `_lru_head` is dereferenced. -/
theorem Set_oversize {s : SimpleLRU} {pre post : List Cell} {c : Cell} {v : Str}
    (h : Rep s (pre ++ c :: post)) (hv : v.length ≤ s.max_size)
    (hbig : s.max_size < c.key.length + v.length) :
    Set s c.key v = .error .null_deref := by
  have hidx := h.idx (c := c) (by simp)
  have hw := h.word
  have hgt : ¬ (v.length > s.max_size) := by omega
  obtain ⟨s1, hM, hR1, hm1, hc1, -, -⟩ := MoveNodeToHead_spec s pre post c h
  have hv1 := hR1.head_value
  have hsize1 := hR1.size
  have hcap1 := hR1.cap
  simp at hsize1
  have hlt : c.value.length < v.length := by unfold Cell.size at hsize1; omega
  have hsub : sub64 v.length c.value.length = v.length - c.value.length :=
    sub64_eq (by omega) (by omega)
  obtain ⟨s2, h1, h2, h3⟩ := ProvideSpace_spec hR1 (n := v.length - c.value.length) (by omega)
  have hcs : ¬ c.size ≤ s1.max_size - (v.length - c.value.length) := by
    unfold Cell.size; omega
  simp only [fit, hcs, if_false] at h2
  have hh := h2.head
  simp at hh
  simp only [Set, hidx, hgt, if_false, hM, discard_ok, bind_ok, hv1, hlt, if_true, hsub, h1]
  simp [getValue, deref, hh]


/-! ## A call that returns false has changed nothing -/

theorem bind_eq_ok {ε α β : Type} (x : Except ε α) (f : α → Except ε β) (b : β) :
    (x >>= f) = .ok b ↔ ∃ a, x = .ok a ∧ f a = .ok b := by
  cases x with
  | error e => simp
  | ok a => simp

theorem PutIfAbsent_false (s s1 : SimpleLRU) (k v : Str)
    (h : PutIfAbsent s k v = .ok (false, s1)) : s1 = s := by
  unfold PutIfAbsent at h
  cases hidx : aget s.lru_index k with
  | some a => simp [hidx] at h; exact h.symm
  | none =>
    by_cases hb : add64 k.length v.length > s.max_size
    · simp [hidx, hb] at h; exact h.symm
    · simp [hidx, hb, bind_eq_ok] at h
      obtain ⟨_, -, _, _, -, _, -, a2, -, h⟩ := h
      split at h
      · simp at h
      · simp [bind_eq_ok] at h

theorem Put_false (s s1 : SimpleLRU) (k v : Str) (h : Put s k v = .ok (false, s1)) : s1 = s := by
  unfold Put at h
  cases hidx : aget s.lru_index k with
  | none =>
    rw [hidx] at h
    exact PutIfAbsent_false s s1 k v h
  | some a =>
    rw [hidx] at h
    by_cases hb : add64 k.length v.length > s.max_size
    · simp [hb] at h; exact h.symm
    · simp [hb, bind_eq_ok] at h

theorem Set_false (s s1 : SimpleLRU) (k v : Str) (h : Set s k v = .ok (false, s1)) : s1 = s := by
  unfold Set at h
  cases hidx : aget s.lru_index k with
  | none => simp [hidx] at h; exact h.symm
  | some a =>
    rw [hidx] at h
    by_cases hb : v.length > s.max_size
    · simp [hb] at h; exact h.symm
    · simp [hb, bind_eq_ok] at h

theorem Delete_false (s s1 : SimpleLRU) (k : Str) (h : Delete s k = .ok (false, s1)) :
    s1 = s := by
  unfold Delete at h
  cases hidx : aget s.lru_index k with
  | none => simp [hidx] at h; exact h.symm
  | some a =>
    rw [hidx] at h
    simp [bind_eq_ok] at h
    obtain ⟨_, -, _, -, hn, -, h⟩ := h
    split at h
    · simp [bind_eq_ok] at h
    · simp [bind_eq_ok] at h
      obtain ⟨np, -, h⟩ := h
      split at h
      · simp [bind_eq_ok] at h
      · simp [bind_eq_ok] at h
        obtain ⟨nn, -, h⟩ := h
        split at h
        · simp [bind_eq_ok] at h
        · simp [bind_eq_ok] at h

theorem Get_false (s s1 : SimpleLRU) (k out o : Str) (h : Get s k out = .ok (false, o, s1)) :
    s1 = s ∧ o = out := by
  unfold Get at h
  cases hidx : aget s.lru_index k with
  | none => simp [hidx] at h; exact ⟨h.2.symm, h.1.symm⟩
  | some a =>
    rw [hidx] at h
    simp [bind_eq_ok] at h

/-! ## Well-formedness is kept by every call that returns -/

theorem Set_eq_Put {s : SimpleLRU} {k v : Str} {a : Addr} (hidx : aget s.lru_index k = some a)
    (hfit : k.length + v.length ≤ s.max_size) (hw : s.max_size < 2 ^ 64) :
    Set s k v = Put s k v := by
  have hadd : add64 k.length v.length = k.length + v.length := add64_eq (by omega)
  have h1 : ¬ (v.length > s.max_size) := by omega
  have h2 : ¬ (k.length + v.length > s.max_size) := by omega
  simp only [Set, Put, hidx, hadd, h1, h2, if_false]

theorem PutIfAbsent_oversize (s : SimpleLRU) {k v : Str} (hword : k.length + v.length < 2 ^ 64)
    (hbig : s.max_size < k.length + v.length) : PutIfAbsent s k v = .ok (false, s) := by
  have hadd : add64 k.length v.length = k.length + v.length := add64_eq hword
  cases hidx : aget s.lru_index k <;> simp [PutIfAbsent, hidx, hadd, hbig]

theorem Put_wf {s s1 : SimpleLRU} {k v : Str} {b : Bool} (hwf : WellFormed s)
    (hword : k.length + v.length < 2 ^ 64) (h : Put s k v = .ok (b, s1)) : WellFormed s1 := by
  obtain ⟨L, hR⟩ := hwf
  by_cases hfit : k.length + v.length ≤ s.max_size
  · obtain ⟨a, s2, h1, h2, -⟩ := Put_spec hR (k := k) (v := v) hfit
    rw [h1] at h
    cases h
    exact ⟨_, h2⟩
  · rw [Put_oversize s hword (by omega)] at h
    cases h
    exact ⟨L, hR⟩

theorem PutIfAbsent_wf {s s1 : SimpleLRU} {k v : Str} {b : Bool} (hwf : WellFormed s)
    (hword : k.length + v.length < 2 ^ 64) (h : PutIfAbsent s k v = .ok (b, s1)) :
    WellFormed s1 := by
  cases hidx : aget s.lru_index k with
  | some a =>
    simp [PutIfAbsent, hidx] at h
    rw [← h.2]; exact hwf
  | none =>
    have : Put s k v = .ok (b, s1) := by simp only [Put, hidx, h]
    exact Put_wf hwf hword this

theorem Set_wf {s s1 : SimpleLRU} {k v : Str} {b : Bool} (hwf : WellFormed s)
    (hword : k.length + v.length < 2 ^ 64) (h : Set s k v = .ok (b, s1)) : WellFormed s1 := by
  cases hidx : aget s.lru_index k with
  | none =>
    simp [Set, hidx] at h
    rw [← h.2]; exact hwf
  | some a =>
    by_cases hv : v.length > s.max_size
    · simp [Set, hidx, hv] at h
      rw [← h.2]; exact hwf
    · obtain ⟨L, hR⟩ := hwf
      by_cases hfit : k.length + v.length ≤ s.max_size
      · rw [Set_eq_Put hidx hfit hR.word] at h
        exact Put_wf ⟨L, hR⟩ hword h
      · obtain ⟨pre, c, post, rfl, rfl, rfl⟩ := hR.split hidx
        rw [Set_oversize hR (by omega) (by omega)] at h
        cases h

theorem Delete_wf {s s1 : SimpleLRU} {k : Str} {b : Bool} (hwf : WellFormed s)
    (h : Delete s k = .ok (b, s1)) : WellFormed s1 := by
  cases hidx : aget s.lru_index k with
  | none =>
    simp [Delete, hidx] at h
    rw [← h.2]; exact hwf
  | some a =>
    obtain ⟨L, hR⟩ := hwf
    obtain ⟨pre, c, post, rfl, rfl, rfl⟩ := hR.split hidx
    obtain ⟨s2, h1, h2, -⟩ := Delete_spec s pre post c hR
    rw [h1] at h
    cases h
    exact ⟨_, h2⟩

theorem Get_wf {s s1 : SimpleLRU} {k out o : Str} {b : Bool} (hwf : WellFormed s)
    (h : Get s k out = .ok (b, o, s1)) : WellFormed s1 := by
  cases hidx : aget s.lru_index k with
  | none =>
    simp [Get, hidx] at h
    rw [← h.2.2]; exact hwf
  | some a =>
    obtain ⟨L, hR⟩ := hwf
    obtain ⟨pre, c, post, rfl, rfl, rfl⟩ := hR.split hidx
    obtain ⟨s2, h1, h2, -⟩ := Get_spec out hR
    rw [h1] at h
    cases h
    exact ⟨_, h2⟩

theorem call_wf {s s1 : SimpleLRU} {c : Call} {out o : Str} {b : Bool} (hwf : WellFormed s)
    (hword : c.wordSized) (h : call s c out = .ok (b, o, s1)) : WellFormed s1 := by
  cases c with
  | Put k v =>
    simp only [call] at h
    cases hp : Put s k v with
    | error e => rw [hp] at h; cases h
    | ok r => obtain ⟨b2, s2⟩ := r; rw [hp] at h; cases h; exact Put_wf hwf hword hp
  | PutIfAbsent k v =>
    simp only [call] at h
    cases hp : PutIfAbsent s k v with
    | error e => rw [hp] at h; cases h
    | ok r => obtain ⟨b2, s2⟩ := r; rw [hp] at h; cases h; exact PutIfAbsent_wf hwf hword hp
  | Set k v =>
    simp only [call] at h
    cases hp : Set s k v with
    | error e => rw [hp] at h; cases h
    | ok r => obtain ⟨b2, s2⟩ := r; rw [hp] at h; cases h; exact Set_wf hwf hword hp
  | Delete k =>
    simp only [call] at h
    cases hp : Delete s k with
    | error e => rw [hp] at h; cases h
    | ok r => obtain ⟨b2, s2⟩ := r; rw [hp] at h; cases h; exact Delete_wf hwf hp
  | Get k => exact Get_wf hwf h

/-- Every state reached from a well-formed state by calls that all return is well-formed:
the size is the sum of the entry sizes and within the capacity, and the index and the list
hold the same keys. -/
theorem run_wf : ∀ (cs : List Call) (s s2 : SimpleLRU) (bs : List Bool), WellFormed s →
    (∀ c ∈ cs, c.wordSized) → run s cs = .ok (bs, s2) → WellFormed s2 := by
  intro cs
  induction cs with
  | nil =>
    intro s s2 bs hwf _ h
    simp [run] at h
    rw [← h.2]; exact hwf
  | cons c cs ih =>
    intro s s2 bs hwf hw h
    simp only [run] at h
    cases hc : call s c [] with
    | error e => rw [hc] at h; cases h
    | ok r =>
      obtain ⟨b, o, s1⟩ := r
      rw [hc] at h
      simp only at h
      cases hr : run s1 cs with
      | error e => rw [hr] at h; cases h
      | ok r2 =>
        obtain ⟨bs2, s3⟩ := r2
        rw [hr] at h
        cases h
        exact ih s1 _ _ (call_wf hwf (hw c (List.mem_cons_self _ _)) hc)
          (fun d hd => hw d (List.mem_cons_of_mem _ hd)) hr

/-! ## The states of the scenarios -/

theorem after1_eq : Put (SimpleLRU.new 10) ['a'] ['1'] = .ok (true, after1) := rfl
theorem after2_eq : Put after1 ['b'] ['2'] = .ok (true, after2) := rfl
theorem after3_eq : Put after2 ['c'] ['3'] = .ok (true, after3) := rfl
theorem after4_eq : Put after3 ['d'] ['4'] = .ok (true, after4) := rfl
theorem after5_eq : Put after4 ['e'] ['5'] = .ok (true, after5) := rfl
theorem after6_eq : Put after5 ['f'] ['6'] = .ok (true, after6) := rfl
theorem after7_eq (out : Str) : Get after6 ['b'] out = .ok (true, ['2'], after7) := rfl
theorem after8_eq : Put after7 ['g'] ['7'] = .ok (true, after8) := rfl
theorem grown1_eq : Put after1 ['a'] ['1', '2', '3'] = .ok (true, grown1) := rfl
theorem tiny1_eq : Put (SimpleLRU.new 3) ['a'] ['b'] = .ok (true, tiny1) := rfl
theorem small1_eq : PutIfAbsent (SimpleLRU.new 4) ['a'] ['b'] = .ok (true, small1) := rfl
theorem small2_eq : Put small1 ['c'] ['d'] = .ok (true, small2) := rfl

theorem new_wf {m : Nat} (hm : m < 2 ^ 64) : WellFormed (SimpleLRU.new m) := ⟨[], Rep.new hm⟩

theorem after1_wf : WellFormed after1 := Put_wf (new_wf (by norm_num)) (by decide) after1_eq
theorem after2_wf : WellFormed after2 := Put_wf after1_wf (by decide) after2_eq
theorem after3_wf : WellFormed after3 := Put_wf after2_wf (by decide) after3_eq
theorem after4_wf : WellFormed after4 := Put_wf after3_wf (by decide) after4_eq
theorem after5_wf : WellFormed after5 := Put_wf after4_wf (by decide) after5_eq
theorem tiny1_wf : WellFormed tiny1 := Put_wf (new_wf (by norm_num)) (by decide) tiny1_eq

/-! ## The eviction loop in full -/

theorem ProvideSpace_loop_enough {s : SimpleLRU} {n : Nat}
    (h : ¬ (sub64 s.max_size s.current_size < n)) (fuel : Nat) :
    ProvideSpace_loop fuel s n = .ok (true, s) := by
  cases fuel <;> simp [ProvideSpace_loop, h]

/-- The eviction loop on a well-formed state, in full: it returns true exactly when the
request is within the capacity, the list left is the longest prefix that leaves the room
asked for (nothing when the request is beyond the capacity), and it is done after as many
calls of `DeleteLruTail` as entries are evicted, one more when it returns false. -/
theorem ProvideSpace_loop_exact (n : Nat) :
    ∀ (m : Nat) (L : List Cell) (s : SimpleLRU), Rep s L → L.length = m →
      ∃ b s2 R, R <+: L ∧ Rep s2 R ∧ s2.max_size = s.max_size ∧
        (b = true ↔ n ≤ s.max_size) ∧ (b = true → R = fit (s.max_size - n) L) ∧
        (b = false → R = []) ∧
        ∀ fuel, L.length - R.length + (if b = true then 0 else 1) ≤ fuel →
          ProvideSpace_loop fuel s n = .ok (b, s2) := by
  intro m
  induction m with
  | zero =>
    intro L s h hl
    have : L = [] := by simpa using hl
    subst this
    have hs := h.size
    have hw := h.word
    simp at hs
    by_cases hn : n ≤ s.max_size
    · refine ⟨true, s, [], List.prefix_refl _, h, rfl, by simp [hn], fun _ => rfl,
        (fun hb => by cases hb), ?_⟩
      intro fuel _
      apply ProvideSpace_loop_enough
      rw [hs, sub64_eq (Nat.zero_le _) hw]
      omega
    · refine ⟨false, s, [], List.prefix_refl _, h, rfl, by simp [hn], (fun hb => by cases hb),
        fun _ => rfl, ?_⟩
      intro fuel hf
      simp at hf
      obtain ⟨f, rfl⟩ : ∃ f, fuel = f + 1 := ⟨fuel - 1, by omega⟩
      rw [ProvideSpace_loop, hs, sub64_eq (Nat.zero_le _) hw]
      have hlt : s.max_size - 0 < n := by omega
      simp only [hlt, if_true, DeleteLruTail_nil h]
  | succ k ih =>
    intro L s h hl
    have hs := h.size
    have hw := h.word
    have hc := h.cap
    rcases List.eq_nil_or_concat L with rfl | ⟨xs, c, hL⟩
    · simp at hl
    · rw [List.concat_eq_append] at hL
      subst hL
      by_cases hlt : s.max_size - s.current_size < n
      · obtain ⟨s1, h1, h2, h3⟩ := DeleteLruTail_snoc h
        obtain ⟨b, s2, R, hR, hRep, hm, hb, ht, hf, hfuel⟩ :=
          ih xs s1 h2 (by simp at hl; omega)
        have hlen := hR.length_le
        refine ⟨b, s2, R, hR.trans (List.prefix_append _ _), hRep, by omega, by rw [← h3]; exact hb,
          ?_, hf, ?_⟩
        · intro hbt
          have hn : n ≤ s.max_size := by rw [← h3]; exact hb.1 hbt
          rw [fit_snoc (by omega), ← h3]
          exact ht hbt
        · intro fuel hfu
          simp only [List.length_append, List.length_singleton] at hfu
          obtain ⟨f, rfl⟩ : ∃ f, fuel = f + 1 := ⟨fuel - 1, by omega⟩
          rw [ProvideSpace_loop, sub64_eq hc hw]
          simp only [hlt, if_true, h1]
          exact hfuel f (by omega)
      · have hn : n ≤ s.max_size := by omega
        refine ⟨true, s, xs ++ [c], List.prefix_refl _, h, rfl, by simp [hn], ?_,
          (fun hb => by cases hb), ?_⟩
        · intro _
          rw [fit_all (by omega)]
        · intro fuel _
          apply ProvideSpace_loop_enough
          rw [sub64_eq hc hw]
          exact hlt

theorem ProvideSpace_exact {s : SimpleLRU} {L : List Cell} (h : Rep s L) (n : Nat) :
    ∃ b s2 R, R <+: L ∧ Rep s2 R ∧ s2.max_size = s.max_size ∧
      (b = true ↔ n ≤ s.max_size) ∧ (b = true → R = fit (s.max_size - n) L) ∧
      (b = false → R = []) ∧ ProvideSpace s n = .ok (b, s2) ∧
      ∀ fuel, L.length - R.length + (if b = true then 0 else 1) ≤ fuel →
        ProvideSpace_loop fuel s n = .ok (b, s2) := by
  obtain ⟨b, s2, R, hR, hRep, hm, hb, ht, hf, hfuel⟩ := ProvideSpace_loop_exact n _ L s h rfl
  refine ⟨b, s2, R, hR, hRep, hm, hb, ht, hf, ?_, hfuel⟩
  have := h.length_le
  apply hfuel
  split <;> omega

/-! ## The claims -/

theorem entries_filter {s : SimpleLRU} {L : List Cell} (h : Rep s L) (k : Str) :
    (entries s).filter (fun e => decide (e.1 ≠ k)) =
      (L.filter (fun c => decide (c.key ≠ k))).map Cell.kv := by
  rw [h.entries, List.filter_map]
  rfl

theorem initial_map_kv {P : List (Str × Str)} {L : List Cell} (h : P <+: L.map Cell.kv) :
    ∃ P2, P2 <+: L ∧ P = P2.map Cell.kv := by
  obtain ⟨t, ht⟩ := h
  obtain ⟨l1, l2, rfl, h1, -⟩ := List.map_eq_append_iff.1 ht.symm
  exact ⟨l1, List.prefix_append _ _, h1.symm⟩

theorem Rep.present_iff {s : SimpleLRU} {L : List Cell} (h : Rep s L) (k : Str) :
    k ∈ indexKeys s ↔ k ∈ L.map Cell.key := by
  unfold indexKeys
  rw [← aget_isSome_iff]
  constructor
  · rintro ⟨a, ha⟩
    obtain ⟨c, hc, rfl, -⟩ := (h.index k a).1 ha
    exact List.mem_map_of_mem _ hc
  · intro hk
    obtain ⟨c, hc, rfl⟩ := List.mem_map.1 hk
    exact ⟨c.addr, h.idx hc⟩

/-! ## More on resident keys and on the update path -/

theorem mem_entries_split {s : SimpleLRU} {L : List Cell} (h : Rep s L) {k v : Str}
    (hk : (k, v) ∈ entries s) :
    ∃ pre c post, L = pre ++ c :: post ∧ c.key = k ∧ c.value = v := by
  rw [h.entries] at hk
  obtain ⟨c, hc, he⟩ := List.mem_map.1 hk
  obtain ⟨pre, post, rfl⟩ := List.append_of_mem hc
  simp only [Cell.kv, Prod.mk.injEq] at he
  exact ⟨pre, c, post, rfl, he.1, he.2⟩

theorem Rep.index_nil {s : SimpleLRU} (h : Rep s []) : s.lru_index = [] := by
  cases hi : s.lru_index with
  | nil => rfl
  | cons x l =>
    obtain ⟨k, a⟩ := x
    have := (h.index k a).1 (by rw [hi]; simp [aget])
    simp at this

theorem Rep.keys_subset {s s2 : SimpleLRU} {L L2 : List Cell} (h : Rep s L) (h2 : Rep s2 L2)
    (hsub : ∀ c ∈ L2, c.key ∈ L.map Cell.key) : ∀ x ∈ indexKeys s2, x ∈ indexKeys s := by
  intro x hx
  rw [h.present_iff]
  obtain ⟨c, hc, rfl⟩ := List.mem_map.1 ((h2.present_iff x).1 hx)
  exact hsub c hc

/-- The update path of `Put` on a resident key, statement by statement: `s0` is the state
after `MoveNodeToHead`, `s1` the one after the conditional `ProvideSpace`, where the size
is updated. -/
theorem Put_present_trace {s : SimpleLRU} {pre post : List Cell} {c : Cell} {v : Str}
    (h : Rep s (pre ++ c :: post)) (hsz : c.key.length + v.length ≤ s.max_size) :
    ∃ s0 s1 s2, discard (MoveNodeToHead s c.key) = .ok s0 ∧
      (if c.value.length < v.length then
          discard (ProvideSpace s0 (sub64 v.length c.value.length))
        else .ok s0 : Except Fault SimpleLRU) = .ok s1 ∧
      getValue s1 s1.lru_head = .ok c.value ∧
      c.value.length ≤ s1.current_size ∧ s1.current_size ≤ s.max_size ∧
      s1.current_size + v.length - c.value.length ≤ s.max_size ∧
      Put s c.key v = .ok (true, s2) ∧
      s2.current_size = sub64 s1.current_size (sub64 c.value.length v.length) := by
  have hidx := h.idx (c := c) (by simp)
  have hw := h.word
  have hadd : add64 c.key.length v.length = c.key.length + v.length := add64_eq (by omega)
  have hgt : ¬ (c.key.length + v.length > s.max_size) := by omega
  obtain ⟨s1, hM, hR1, hm1, hc1, -, -⟩ := MoveNodeToHead_spec s pre post c h
  have hv1 := hR1.head_value
  have hsize1 := hR1.size
  have hcap1 := hR1.cap
  simp at hsize1
  obtain ⟨s2, hs2, hR2, hm2⟩ : ∃ s2,
      (if c.value.length < v.length then
          discard (ProvideSpace s1 (sub64 v.length c.value.length))
        else .ok s1 : Except Fault SimpleLRU) = .ok s2 ∧
      Rep s2 (c :: fit (s.max_size - (c.key.length + v.length)) (pre ++ post)) ∧
      s2.max_size = s.max_size := by
    by_cases hlt : c.value.length < v.length
    · have hsub : sub64 v.length c.value.length = v.length - c.value.length :=
        sub64_eq (by omega) (by omega)
      obtain ⟨s2, h1, h2, h3⟩ := ProvideSpace_spec hR1 (n := v.length - c.value.length)
        (by omega)
      refine ⟨s2, by simp [hlt, hsub, h1, discard], ?_, by omega⟩
      have hcs : c.size ≤ s1.max_size - (v.length - c.value.length) := by
        unfold Cell.size; omega
      have he : s1.max_size - (v.length - c.value.length) - c.size =
          s.max_size - (c.key.length + v.length) := by
        unfold Cell.size; omega
      simpa [fit, hcs, he] using h2
    · refine ⟨s1, by simp [hlt], ?_, hm1⟩
      have hfit : total (pre ++ post) ≤ s.max_size - (c.key.length + v.length) := by
        unfold Cell.size at hsize1; simp at hsize1 ⊢; omega
      rw [fit_all hfit]
      exact hR1
  have hv2 := hR2.head_value
  have hsize2 := hR2.size
  have hcap2 := hR2.cap
  have hseg2 := hR2.seg
  have hhead2 := hR2.head
  have htf := total_fit_le (s.max_size - (c.key.length + v.length)) (pre ++ post)
  generalize fit (s.max_size - (c.key.length + v.length)) (pre ++ post) = R at *
  simp at hsize2 hseg2 hhead2
  have hput : ∃ s3, Put s c.key v = .ok (true, s3) ∧
      s3.current_size = sub64 s2.current_size (sub64 c.value.length v.length) := by
    simp only [Put, hidx, hadd, hgt, if_false, hM, discard_ok, bind_ok, hv1, hs2, hv2]
    simp only [setValue, deref, hhead2, hseg2.1, bind_ok, pure_ok]
    exact ⟨_, rfl, rfl⟩
  obtain ⟨s3, hp1, hp2⟩ := hput
  exact ⟨s1, s2, s3, by rw [hM]; rfl, hs2, hv2, by unfold Cell.size at hsize2; omega,
    by omega, by unfold Cell.size at hsize2; omega, hp1, hp2⟩

/-- C3. Round trip: on a well-formed cache, when `Put(k, v)` returns true, the `Get(k)`
that follows returns true and writes `v` to the out value; this covers the absent key, the
resident key, and the only entry that grows. -/
theorem C3_put_get_round_trip (s s1 : SimpleLRU) (k v out : Str) (hwf : WellFormed s)
    (hword : k.length + v.length < 2 ^ 64) (hput : Put s k v = .ok (true, s1)) :
    ∃ s2, Get s1 k out = .ok (true, v, s2) := by
  obtain ⟨L, hR⟩ := hwf
  by_cases hfit : k.length + v.length ≤ s.max_size
  · obtain ⟨a, s2, h1, h2, -⟩ := Put_spec hR (k := k) (v := v) hfit
    rw [h1] at hput
    cases hput
    have h4 : Rep s1 ([] ++ (⟨a, k, v⟩ : Cell) ::
        fit (s.max_size - (k.length + v.length)) (L.filter (fun c => decide (c.key ≠ k)))) := h2
    obtain ⟨s3, h3, -⟩ := Get_spec out h4
    exact ⟨s3, h3⟩
  · rw [Put_oversize s hword (by omega)] at hput
    cases hput

theorem C3_put_get_round_trip_witness :
    WellFormed after1 ∧ Put after1 ['a'] ['1', '2', '3'] = .ok (true, grown1) ∧
      ∃ s2, Get grown1 ['a'] ['z'] = .ok (true, ['1', '2', '3'], s2) :=
  ⟨after1_wf, grown1_eq,
    C3_put_get_round_trip after1 grown1 ['a'] ['1', '2', '3'] ['z'] after1_wf (by decide)
      grown1_eq⟩

/-- C4. Strict LRU eviction by `Put`: on a well-formed cache, `Put(k, v)` of an entry that
fits returns true, and the recency list afterwards is `(k, v)` followed by `R`, where `R`
is a prefix of the former list without the entry of `k`, has total size at most
`max_size - (len k + len v)`, and is the longest such prefix. -/
theorem C4_put_strict_lru (s : SimpleLRU) (k v : Str) (hwf : WellFormed s)
    (hfit : k.length + v.length ≤ s.max_size) :
    ∃ s1 R, Put s k v = .ok (true, s1) ∧ entries s1 = (k, v) :: R ∧
      R <+: (entries s).filter (fun e => decide (e.1 ≠ k)) ∧
      kvTotal R ≤ s.max_size - (k.length + v.length) ∧
      ∀ P, P <+: (entries s).filter (fun e => decide (e.1 ≠ k)) →
        kvTotal P ≤ s.max_size - (k.length + v.length) → P.length ≤ R.length := by
  obtain ⟨L, hR⟩ := hwf
  obtain ⟨a, s2, h1, h2, -⟩ := Put_spec hR (k := k) (v := v) hfit
  refine ⟨s2, (fit (s.max_size - (k.length + v.length))
    (L.filter (fun c => decide (c.key ≠ k)))).map Cell.kv, h1, ?_, ?_, ?_, ?_⟩
  · rw [h2.entries]; rfl
  · rw [entries_filter hR]
    exact (fit_initial _ _).map _
  · rw [kvTotal_map]; exact total_fit_le _ _
  · intro P hP hPt
    rw [entries_filter hR] at hP
    obtain ⟨P2, hP2, rfl⟩ := initial_map_kv hP
    rw [kvTotal_map] at hPt
    simpa using fit_longest hP2 hPt

theorem C4_put_strict_lru_witness :
    WellFormed after5 ∧ ∃ s1 R, Put after5 ['f'] ['6'] = .ok (true, s1) ∧
      entries s1 = (['f'], ['6']) :: R ∧
      R <+: (entries after5).filter (fun e => decide (e.1 ≠ ['f'])) ∧
      kvTotal R ≤ after5.max_size - (['f'].length + ['6'].length) ∧
      ∀ P, P <+: (entries after5).filter (fun e => decide (e.1 ≠ ['f'])) →
        kvTotal P ≤ after5.max_size - (['f'].length + ['6'].length) → P.length ≤ R.length :=
  ⟨after5_wf, C4_put_strict_lru after5 ['f'] ['6'] after5_wf (by decide)⟩

/-- On a well-formed cache, `Set` on a resident key with a value that passes the check of
`Set` but does not fit beside the key dereferences the null `_lru_head`. -/
theorem Set_fault {s : SimpleLRU} {k v : Str} (hwf : WellFormed s)
    (hk : k ∈ indexKeys s) (hv : v.length ≤ s.max_size)
    (hbig : s.max_size < k.length + v.length) : Set s k v = .error .null_deref := by
  obtain ⟨L, hR⟩ := hwf
  obtain ⟨c, hc, rfl⟩ := List.mem_map.1 ((hR.present_iff k).1 hk)
  obtain ⟨pre, post, rfl⟩ := List.append_of_mem hc
  exact Set_oversize hR hv hbig

theorem small1_wf : WellFormed small1 :=
  PutIfAbsent_wf (new_wf (by norm_num)) (by decide) small1_eq

theorem small2_wf : WellFormed small2 := Put_wf small1_wf (by decide) small2_eq

/-- C5. `Set(k, v)` with `len k + len v > max_size` does not return false when `k` is
resident and `len v <= max_size`: the check of `Set` looks at the value alone, the
eviction loop then evicts every entry, the one of `k` included, and `_lru_head->value` is
read through the null head. -/
theorem C5_set_oversize_null_deref (s : SimpleLRU) (k v : Str) (hwf : WellFormed s)
    (hk : k ∈ indexKeys s) (hv : v.length ≤ s.max_size)
    (hbig : s.max_size < k.length + v.length) : Set s k v = .error .null_deref :=
  Set_fault hwf hk hv hbig

theorem C5_set_oversize_null_deref_witness :
    WellFormed tiny1 ∧ ['a'] ∈ indexKeys tiny1 ∧
      Set tiny1 ['a'] ['x', 'y', 'z'] = .error .null_deref :=
  ⟨tiny1_wf, by decide,
    C5_set_oversize_null_deref tiny1 ['a'] ['x', 'y', 'z'] tiny1_wf (by decide) (by decide)
      (by decide)⟩

/-- C6. On a well-formed cache `Put(k, v)` returns, and it returns true exactly when
`len k + len v <= max_size`, whether or not `k` is resident and however full the cache. -/
theorem C6_put_true_iff_fits (s : SimpleLRU) (k v : Str) (hwf : WellFormed s)
    (hword : k.length + v.length < 2 ^ 64) :
    ∃ b s1, Put s k v = .ok (b, s1) ∧ (b = true ↔ k.length + v.length ≤ s.max_size) := by
  obtain ⟨L, hR⟩ := hwf
  by_cases hfit : k.length + v.length ≤ s.max_size
  · obtain ⟨a, s2, h1, -, -⟩ := Put_spec hR (k := k) (v := v) hfit
    exact ⟨true, s2, h1, by simp [hfit]⟩
  · exact ⟨false, s, Put_oversize s hword (by omega), by simp [hfit]⟩

theorem C6_put_true_iff_fits_witness :
    WellFormed after5 ∧ ∃ b s1, Put after5 ['e'] ['5', '5'] = .ok (b, s1) ∧
      (b = true ↔ ['e'].length + ['5', '5'].length ≤ after5.max_size) :=
  ⟨after5_wf, C6_put_true_iff_fits after5 ['e'] ['5', '5'] after5_wf (by decide)⟩

/-- C7. On a well-formed cache `PutIfAbsent(k, v)` returns, and it returns true exactly
when `k` is not resident and `len k + len v <= max_size`; when it returns true, `(k, v)`
is the head of the recency list and `Put(k, v)` gives the same result and state. -/
theorem C7_putIfAbsent_result (s : SimpleLRU) (k v : Str) (hwf : WellFormed s)
    (hword : k.length + v.length < 2 ^ 64) :
    ∃ b s1, PutIfAbsent s k v = .ok (b, s1) ∧
      (b = true ↔ (k ∉ indexKeys s ∧ k.length + v.length ≤ s.max_size)) ∧
      (b = true → (entries s1).head? = some (k, v) ∧ Put s k v = .ok (true, s1)) := by
  obtain ⟨L, hR⟩ := hwf
  by_cases hk : k ∈ indexKeys s
  · obtain ⟨a, ha⟩ := (aget_isSome_iff _ _).2 hk
    refine ⟨false, s, by simp [PutIfAbsent, ha], by simp [hk], by simp⟩
  · by_cases hfit : k.length + v.length ≤ s.max_size
    · have hkL : k ∉ L.map Cell.key := fun h => hk ((hR.present_iff k).2 h)
      obtain ⟨a, s2, h1, h2, -⟩ := PutIfAbsent_spec hR hkL hfit
      refine ⟨true, s2, h1, by simp [hk, hfit], fun _ => ⟨?_, ?_⟩⟩
      · rw [h2.entries]; rfl
      · simp only [Put, hR.absent hkL, h1]
    · exact ⟨false, s, PutIfAbsent_oversize s hword (by omega), by simp [hfit], by simp⟩

theorem C7_putIfAbsent_result_witness :
    WellFormed after5 ∧ ∃ b s1, PutIfAbsent after5 ['f'] ['6'] = .ok (b, s1) ∧
      (b = true ↔ (['f'] ∉ indexKeys after5 ∧ ['f'].length + ['6'].length ≤ after5.max_size)) ∧
      (b = true → (entries s1).head? = some (['f'], ['6']) ∧
        Put after5 ['f'] ['6'] = .ok (true, s1)) :=
  ⟨after5_wf, C7_putIfAbsent_result after5 ['f'] ['6'] after5_wf (by decide)⟩

/-- C8. Failure atomicity: whenever `Put`, `PutIfAbsent`, `Set`, `Delete` or `Get` returns
false, the state is the one before the call, and the out value of `Get` is the one passed
in; and `PutIfAbsent(k, v)` with `len k + len v > max_size` returns false. -/
theorem C8_failure_atomicity (s s1 : SimpleLRU) (c : Call) (out o : Str)
    (h : call s c out = .ok (false, o, s1)) :
    s1 = s ∧ o = out ∧
      ∀ k v, k.length + v.length < 2 ^ 64 → s.max_size < k.length + v.length →
        PutIfAbsent s k v = .ok (false, s) := by
  refine ⟨?_, ?_, fun k v hw hb => PutIfAbsent_oversize s hw hb⟩
  · cases c with
    | Put k v =>
      simp only [call] at h
      cases hp : Put s k v with
      | error e => rw [hp] at h; cases h
      | ok r => obtain ⟨b2, s2⟩ := r; rw [hp] at h; cases h; exact Put_false s s1 k v hp
    | PutIfAbsent k v =>
      simp only [call] at h
      cases hp : PutIfAbsent s k v with
      | error e => rw [hp] at h; cases h
      | ok r =>
        obtain ⟨b2, s2⟩ := r; rw [hp] at h; cases h; exact PutIfAbsent_false s s1 k v hp
    | Set k v =>
      simp only [call] at h
      cases hp : Set s k v with
      | error e => rw [hp] at h; cases h
      | ok r => obtain ⟨b2, s2⟩ := r; rw [hp] at h; cases h; exact Set_false s s1 k v hp
    | Delete k =>
      simp only [call] at h
      cases hp : Delete s k with
      | error e => rw [hp] at h; cases h
      | ok r => obtain ⟨b2, s2⟩ := r; rw [hp] at h; cases h; exact Delete_false s s1 k hp
    | Get k => exact (Get_false s s1 k out o h).1
  · cases c with
    | Put k v =>
      simp only [call] at h
      cases hp : Put s k v with
      | error e => rw [hp] at h; cases h
      | ok r => obtain ⟨b2, s2⟩ := r; rw [hp] at h; cases h; rfl
    | PutIfAbsent k v =>
      simp only [call] at h
      cases hp : PutIfAbsent s k v with
      | error e => rw [hp] at h; cases h
      | ok r => obtain ⟨b2, s2⟩ := r; rw [hp] at h; cases h; rfl
    | Set k v =>
      simp only [call] at h
      cases hp : Set s k v with
      | error e => rw [hp] at h; cases h
      | ok r => obtain ⟨b2, s2⟩ := r; rw [hp] at h; cases h; rfl
    | Delete k =>
      simp only [call] at h
      cases hp : Delete s k with
      | error e => rw [hp] at h; cases h
      | ok r => obtain ⟨b2, s2⟩ := r; rw [hp] at h; cases h; rfl
    | Get k => exact (Get_false s s1 k out o h).2

theorem C8_failure_atomicity_witness :
    call after5 (.PutIfAbsent ['f'] ['1', '2', '3', '4', '5', '6', '7', '8', '9', '0']) ['z'] =
        .ok (false, ['z'], after5) ∧
      after5 = after5 ∧ ['z'] = ['z'] ∧
      PutIfAbsent after5 ['f'] ['1', '2', '3', '4', '5', '6', '7', '8', '9', '0'] =
        .ok (false, after5) :=
  have h := C8_failure_atomicity after5 after5
    (.PutIfAbsent ['f'] ['1', '2', '3', '4', '5', '6', '7', '8', '9', '0']) ['z'] ['z'] rfl
  ⟨rfl, h.1, h.2.1, h.2.2 _ _ (by decide) (by decide)⟩

/-- C9. The eviction scenario: on an empty cache of capacity 10 the five calls
`Put("a","1")` ... `Put("e","5")` return true and leave `current_size == 10`; then
`Put("f","6")` returns true, the keys resident are b, c, d, e, f (index and list agree),
`Get("a")` returns false, and `current_size == 10`. -/
theorem C9_eviction_scenario :
    Put (SimpleLRU.new 10) ['a'] ['1'] = .ok (true, after1) ∧
    Put after1 ['b'] ['2'] = .ok (true, after2) ∧
    Put after2 ['c'] ['3'] = .ok (true, after3) ∧
    Put after3 ['d'] ['4'] = .ok (true, after4) ∧
    Put after4 ['e'] ['5'] = .ok (true, after5) ∧
    after5.current_size = 10 ∧
    Put after5 ['f'] ['6'] = .ok (true, after6) ∧
    indexKeys after6 = [['f'], ['e'], ['d'], ['c'], ['b']] ∧
    (entries after6).map Prod.fst = [['f'], ['e'], ['d'], ['c'], ['b']] ∧
    (∀ out, Get after6 ['a'] out = .ok (false, out, after6)) ∧
    after6.current_size = 10 :=
  ⟨rfl, rfl, rfl, rfl, rfl, rfl, rfl, rfl, rfl, fun _ => rfl, rfl⟩

/-- C10. Touch protects from eviction: from the cache of the eviction scenario (keys
b, c, d, e, f), `Get("b")` returns true with the value "2", and the `Put("g","7")` that
follows returns true and evicts c, not b: the keys resident are b, d, e, f, g. -/
theorem C10_touch_protects :
    run (SimpleLRU.new 10) [.Put ['a'] ['1'], .Put ['b'] ['2'], .Put ['c'] ['3'],
        .Put ['d'] ['4'], .Put ['e'] ['5'], .Put ['f'] ['6']] =
      .ok ([true, true, true, true, true, true], after6) ∧
    (∀ out, Get after6 ['b'] out = .ok (true, ['2'], after7)) ∧
    Put after7 ['g'] ['7'] = .ok (true, after8) ∧
    indexKeys after8 = [['g'], ['f'], ['e'], ['d'], ['b']] ∧
    (entries after8).map Prod.fst = [['g'], ['b'], ['f'], ['e'], ['d']] ∧
    (∀ out, Get after8 ['c'] out = .ok (false, out, after8)) :=
  ⟨by simp only [run, call, after1_eq, after2_eq, after3_eq, after4_eq, after5_eq, after6_eq],
    fun _ => rfl, rfl, rfl, rfl, fun _ => rfl⟩

/-- C1. The capacity invariant does not hold after every call of every sequence: after
`Put("a","b")` on an empty cache of capacity 3, which leaves a well-formed state,
`Set("a","xyz")` passes the check of `Set`, evicts the entry itself and dereferences the
null `_lru_head`. -/
theorem C1_capacity_invariant_set_fault :
    Put (SimpleLRU.new 3) ['a'] ['b'] = .ok (true, tiny1) ∧ tiny1.current_size = 2 ∧
      kvTotal (entries tiny1) = 2 ∧
      run (SimpleLRU.new 3) [.Put ['a'] ['b'], .Set ['a'] ['x', 'y', 'z']] =
        .error .null_deref :=
  ⟨rfl, rfl, rfl, by
    have h : Set tiny1 ['a'] ['x', 'y', 'z'] = .error .null_deref :=
      Set_fault tiny1_wf (by decide) (by decide) (by decide)
    simp only [run, call, tiny1_eq, h]⟩

/-- C2. The index/list invariant does not hold after every call of every sequence: after
`PutIfAbsent("a","b")` and `Put("c","d")` on an empty cache of capacity 4, index and list
both hold the keys c, a; then `Set("a","wxyz")` evicts c and a and dereferences the null
`_lru_head`. -/
theorem C2_index_sync_set_fault :
    PutIfAbsent (SimpleLRU.new 4) ['a'] ['b'] = .ok (true, small1) ∧
      Put small1 ['c'] ['d'] = .ok (true, small2) ∧
      indexKeys small2 = [['c'], ['a']] ∧ (entries small2).map Prod.fst = [['c'], ['a']] ∧
      Set small2 ['a'] ['w', 'x', 'y', 'z'] = .error .null_deref :=
  ⟨rfl, rfl, rfl, rfl, Set_fault small2_wf (by decide) (by decide) (by decide)⟩

/-! ## Links, and the number of evictions -/

theorem chain_seg {h : List (Addr × lru_node)} {xs : List Cell} :
    ∀ (fuel : Nat) (p : Option Addr), Seg h p xs none → xs.length ≤ fuel →
      chain fuel h (firstA xs none) = xs.map Cell.addr := by
  induction xs with
  | nil => intro fuel p _ _; cases fuel <;> rfl
  | cons c xs ih =>
    intro fuel p hs hl
    cases fuel with
    | zero => simp at hl
    | succ f =>
      simp at hs hl
      simp [chain, hs.1]
      exact ih f _ hs.2 hl

theorem Rep.nodes {s : SimpleLRU} {L : List Cell} (h : Rep s L) :
    nodes s = L.map Cell.addr := by
  unfold Afina.Backend.nodes
  rw [h.head]
  exact chain_seg _ none h.seg h.length_le_mem

theorem lastA_getLast (L : List Cell) : lastA none L = (L.map Cell.addr).getLast? := by
  rcases List.eq_nil_or_concat L with rfl | ⟨xs, c, hL⟩
  · rfl
  · rw [List.concat_eq_append] at hL
    subst hL
    simp

theorem Seg_links {h : List (Addr × lru_node)} {xs : List Cell} :
    ∀ (p : Option Addr), Seg h p xs none → ∀ c ∈ xs, ∀ n b, aget h c.addr = some n →
      n.next = some b → ∃ m, aget h b = some m ∧ m.prev = some c.addr := by
  induction xs with
  | nil => intro p _ c hc; simp at hc
  | cons x xs ih =>
    intro p hs c hc n b hn hb
    simp at hs
    rcases List.mem_cons.1 hc with rfl | hc
    · rw [hs.1] at hn
      cases hn
      cases xs with
      | nil => simp at hb
      | cons d r =>
        simp at hb hs
        subst hb
        exact ⟨_, hs.2.1, rfl⟩
    · exact ih _ hs.2 c hc n b hn hb

/-- A well-formed state has consistent head, tail and links. -/
theorem Rep.links {s : SimpleLRU} {L : List Cell} (h : Rep s L) : LinksOk s := by
  have hh := h.head
  have ht := h.tail
  have hseg := h.seg
  refine ⟨?_, ?_, ?_, ?_, ?_, ?_⟩
  · rw [hh, ht]
    cases L with
    | nil => simp
    | cons c xs => simp
  · rw [hh, h.nodes]
    cases L with
    | nil => simp
    | cons c xs => simp
  · intro a ha
    rw [hh] at ha
    cases L with
    | nil => simp at ha
    | cons c xs =>
      simp at ha hseg
      subst ha
      exact ⟨_, hseg.1, rfl⟩
  · intro a ha
    rw [ht] at ha
    rcases List.eq_nil_or_concat L with rfl | ⟨xs, c, hL⟩
    · simp at ha
    · rw [List.concat_eq_append] at hL
      subst hL
      simp at ha hseg
      subst ha
      exact ⟨_, hseg.2, rfl⟩
  · rw [ht, h.nodes, lastA_getLast]
  · intro a ha n b hn hb
    rw [h.nodes] at ha
    obtain ⟨c, hc, rfl⟩ := List.mem_map.1 ha
    exact Seg_links none hseg c hc n b hn hb

/-- Every state reached from a well-formed state by calls that all return has consistent
head, tail and links. -/
theorem run_links (cs : List Call) (s s2 : SimpleLRU) (bs : List Bool) (hwf : WellFormed s)
    (hw : ∀ c ∈ cs, c.wordSized) (h : run s cs = .ok (bs, s2)) : LinksOk s2 := by
  obtain ⟨L, hR⟩ := run_wf cs s s2 bs hwf hw h
  exact hR.links

theorem mini1_eq : Put (SimpleLRU.new 2) ['a'] ['b'] = .ok (true, mini1) := rfl

theorem mini1_wf : WellFormed mini1 := Put_wf (new_wf (by norm_num)) (by decide) mini1_eq

theorem after6_wf : WellFormed after6 := Put_wf after5_wf (by decide) after6_eq

theorem entries_after6 : entries after6 =
    [(['f'], ['6']), (['e'], ['5']), (['d'], ['4']), (['c'], ['3']), (['b'], ['2'])] := rfl

theorem entries_after1 : entries after1 = [(['a'], ['1'])] := rfl

theorem evictions_le (n : Nat) :
    ∀ (fuel : Nat) (L : List Cell) (s : SimpleLRU), Rep s L → evictions fuel s n ≤ L.length := by
  intro fuel
  induction fuel with
  | zero => intro L s _; simp [evictions]
  | succ f ih =>
    intro L s h
    rw [evictions]
    split
    · rcases List.eq_nil_or_concat L with rfl | ⟨xs, c, hL⟩
      · simp [DeleteLruTail_nil h]
      · rw [List.concat_eq_append] at hL
        subst hL
        obtain ⟨s1, h1, h2, -⟩ := DeleteLruTail_snoc h
        have := ih xs s1 h2
        simp only [h1, List.length_append, List.length_singleton]
        omega
    · exact Nat.zero_le _

/-! ## The claims, continued -/

/-- C11. `Get` on a resident key `k` with stored value `v` returns true with `out == v`;
the recency list afterwards is `(k, v)` followed by the other entries in their former
order; `current_size`, the capacity and the index are unchanged. -/
theorem C11_get_present (s : SimpleLRU) (k v out : Str) (hwf : WellFormed s)
    (hk : (k, v) ∈ entries s) :
    ∃ s1 pre post, Get s k out = .ok (true, v, s1) ∧
      entries s = pre ++ (k, v) :: post ∧ entries s1 = (k, v) :: (pre ++ post) ∧
      s1.current_size = s.current_size ∧ s1.max_size = s.max_size ∧
      s1.lru_index = s.lru_index ∧ WellFormed s1 := by
  obtain ⟨L, hR⟩ := hwf
  obtain ⟨pre, c, post, rfl, rfl, rfl⟩ := mem_entries_split hR hk
  obtain ⟨s1, h1, h2, h3, h4, h5, -⟩ := Get_spec out hR
  refine ⟨s1, pre.map Cell.kv, post.map Cell.kv, h1, ?_, ?_, h4, h3, h5, ⟨_, h2⟩⟩
  · rw [hR.entries]; simp [Cell.kv]
  · rw [h2.entries]; simp [Cell.kv]

theorem C11_get_present_witness :
    WellFormed after6 ∧ (['b'], ['2']) ∈ entries after6 ∧
      ∃ s1 pre post, Get after6 ['b'] ['z'] = .ok (true, ['2'], s1) ∧
        entries after6 = pre ++ (['b'], ['2']) :: post ∧
        entries s1 = (['b'], ['2']) :: (pre ++ post) ∧
        s1.current_size = after6.current_size ∧ s1.max_size = after6.max_size ∧
        s1.lru_index = after6.lru_index ∧ WellFormed s1 :=
  have hk : (['b'], ['2']) ∈ entries after6 := by rw [entries_after6]; decide
  ⟨after6_wf, hk, C11_get_present after6 ['b'] ['2'] ['z'] after6_wf hk⟩

/-- C12. `Delete` on a resident key `k` with stored value `v` returns true; the recency
list afterwards is the former one without that entry, `k` is not in the index, and
`current_size` has gone down by `len k + len v`. -/
theorem C12_delete_present (s : SimpleLRU) (k v : Str) (hwf : WellFormed s)
    (hk : (k, v) ∈ entries s) :
    ∃ s1 pre post, Delete s k = .ok (true, s1) ∧
      entries s = pre ++ (k, v) :: post ∧ entries s1 = pre ++ post ∧
      k ∉ indexKeys s1 ∧ s1.current_size + (k.length + v.length) = s.current_size ∧
      s1.max_size = s.max_size ∧ WellFormed s1 := by
  obtain ⟨L, hR⟩ := hwf
  obtain ⟨pre, c, post, rfl, rfl, rfl⟩ := mem_entries_split hR hk
  obtain ⟨s1, h1, h2, h3⟩ := Delete_spec s pre post c hR
  refine ⟨s1, pre.map Cell.kv, post.map Cell.kv, h1, ?_, ?_, ?_, ?_, h3, ⟨_, h2⟩⟩
  · rw [hR.entries]; simp [Cell.kv]
  · rw [h2.entries]; simp
  · rw [h2.present_iff]
    have hperm : (pre ++ c :: post).Perm (c :: (pre ++ post)) := List.perm_middle
    have hn := ((hperm.map Cell.key).nodup_iff).1 hR.nodup_key
    simp only [List.map_cons, List.nodup_cons] at hn
    exact hn.1
  · rw [h2.size, hR.size]
    simp [Cell.size]
    omega

theorem C12_delete_present_witness :
    WellFormed after6 ∧ (['d'], ['4']) ∈ entries after6 ∧
      ∃ s1 pre post, Delete after6 ['d'] = .ok (true, s1) ∧
        entries after6 = pre ++ (['d'], ['4']) :: post ∧ entries s1 = pre ++ post ∧
        ['d'] ∉ indexKeys s1 ∧
        s1.current_size + (['d'].length + ['4'].length) = after6.current_size ∧
        s1.max_size = after6.max_size ∧ WellFormed s1 :=
  have hk : (['d'], ['4']) ∈ entries after6 := by rw [entries_after6]; decide
  ⟨after6_wf, hk, C12_delete_present after6 ['d'] ['4'] after6_wf hk⟩

/-- C13. Idempotence of touch: on a well-formed cache, after `Get(k)` on a resident key, a
second `Get(k)` returns the same value and leaves exactly the state of the first. -/
theorem C13_get_idempotent (s : SimpleLRU) (k out : Str) (hwf : WellFormed s)
    (hk : k ∈ indexKeys s) :
    ∃ v s1, Get s k out = .ok (true, v, s1) ∧ ∀ out2, Get s1 k out2 = .ok (true, v, s1) := by
  obtain ⟨L, hR⟩ := hwf
  obtain ⟨c, hc, rfl⟩ := List.mem_map.1 ((hR.present_iff k).1 hk)
  obtain ⟨pre, post, rfl⟩ := List.append_of_mem hc
  obtain ⟨s1, h1, h2, -⟩ := Get_spec out hR
  refine ⟨c.value, s1, h1, fun out2 => ?_⟩
  have h3 : Rep s1 ([] ++ c :: (pre ++ post)) := h2
  obtain ⟨s2, h4, -, -, -, -, h5⟩ := Get_spec out2 h3
  rw [h5 rfl] at h4
  exact h4

theorem C13_get_idempotent_witness :
    WellFormed after6 ∧ ['b'] ∈ indexKeys after6 ∧
      ∃ v s1, Get after6 ['b'] ['z'] = .ok (true, v, s1) ∧
        ∀ out2, Get s1 ['b'] out2 = .ok (true, v, s1) :=
  ⟨after6_wf, by decide, C13_get_idempotent after6 ['b'] ['z'] after6_wf (by decide)⟩

/-- C14. `Set` agrees with `Put` on a resident key: when `len k + len v <= max_size` both
return true and leave the same state; and a `Set` that returns has created no entry (every
key of the index afterwards was in the index before). -/
theorem C14_set_agrees_with_put (s : SimpleLRU) (k v : Str) (hwf : WellFormed s)
    (hk : k ∈ indexKeys s) (hfit : k.length + v.length ≤ s.max_size) :
    (∃ s1, Set s k v = .ok (true, s1) ∧ Put s k v = .ok (true, s1) ∧
      ∀ x ∈ indexKeys s1, x ∈ indexKeys s) ∧
    ∀ k2 v2 b s2, Set s k2 v2 = .ok (b, s2) → ∀ x ∈ indexKeys s2, x ∈ indexKeys s := by
  obtain ⟨L, hR⟩ := hwf
  have hsub : ∀ (pre post : List Cell) (c : Cell) (v2 : Str) (s2 : SimpleLRU),
      L = pre ++ c :: post →
      Rep s2 (⟨c.addr, c.key, v2⟩ ::
        fit (s.max_size - (c.key.length + v2.length)) (pre ++ post)) →
      ∀ x ∈ indexKeys s2, x ∈ indexKeys s := by
    intro pre post c v2 s2 hL h2
    subst hL
    refine Rep.keys_subset hR h2 ?_
    intro d hd
    rcases List.mem_cons.1 hd with rfl | hd
    · simp
    · have := (fit_initial _ _).subset hd
      rcases List.mem_append.1 this with hm | hm
      · exact List.mem_map_of_mem _ (List.mem_append_left _ hm)
      · exact List.mem_map_of_mem _ (List.mem_append_right _ (List.mem_cons_of_mem _ hm))
  constructor
  · obtain ⟨a, ha⟩ := (aget_isSome_iff _ _).2 hk
    obtain ⟨pre, c, post, hL, rfl, rfl⟩ := hR.split ha
    subst hL
    obtain ⟨s1, h1, h2, -⟩ := Put_present_spec hR hfit
    exact ⟨s1, by rw [Set_eq_Put ha hfit hR.word]; exact h1, h1, hsub pre post c v s1 rfl h2⟩
  · intro k2 v2 b s2 hset
    cases hidx : aget s.lru_index k2 with
    | none =>
      simp [Set, hidx] at hset
      rw [← hset.2]; exact fun x hx => hx
    | some a =>
      by_cases hv : v2.length > s.max_size
      · simp [Set, hidx, hv] at hset
        rw [← hset.2]; exact fun x hx => hx
      · obtain ⟨pre, c, post, hL, rfl, rfl⟩ := hR.split hidx
        subst hL
        by_cases hfit2 : c.key.length + v2.length ≤ s.max_size
        · obtain ⟨s1, h1, h2, -⟩ := Put_present_spec hR hfit2
          rw [Set_eq_Put hidx hfit2 hR.word, h1] at hset
          cases hset
          exact hsub pre post c v2 _ rfl h2
        · rw [Set_oversize hR (by omega) (by omega)] at hset
          cases hset

theorem C14_set_agrees_with_put_witness :
    WellFormed after5 ∧ ['e'] ∈ indexKeys after5 ∧
      (∃ s1, Set after5 ['e'] ['5', '5'] = .ok (true, s1) ∧
        Put after5 ['e'] ['5', '5'] = .ok (true, s1) ∧
        ∀ x ∈ indexKeys s1, x ∈ indexKeys after5) ∧
      ∀ k2 v2 b s2, Set after5 k2 v2 = .ok (b, s2) →
        ∀ x ∈ indexKeys s2, x ∈ indexKeys after5 :=
  ⟨after5_wf, by decide,
    C14_set_agrees_with_put after5 ['e'] ['5', '5'] after5_wf (by decide) (by decide)⟩

/-- C15. On any cache, `Get`, `Set` and `Delete` on a key that is not in the index return
false (so all three fail on a freshly constructed cache); on a freshly constructed cache
`Put(k, v)` and `PutIfAbsent(k, v)` return true when `len k + len v <= max_size`. -/
theorem C15_absent_key_and_empty_cache (s : SimpleLRU) (k v out : Str)
    (hk : k ∉ indexKeys s) :
    Get s k out = .ok (false, out, s) ∧ Set s k v = .ok (false, s) ∧
      Delete s k = .ok (false, s) ∧
      (∀ m, Get (SimpleLRU.new m) k out = .ok (false, out, SimpleLRU.new m) ∧
        Set (SimpleLRU.new m) k v = .ok (false, SimpleLRU.new m) ∧
        Delete (SimpleLRU.new m) k = .ok (false, SimpleLRU.new m)) ∧
      ∀ m, m < 2 ^ 64 → k.length + v.length ≤ m →
        (∃ s1, Put (SimpleLRU.new m) k v = .ok (true, s1)) ∧
          ∃ s1, PutIfAbsent (SimpleLRU.new m) k v = .ok (true, s1) := by
  have hidx : aget s.lru_index k = none := (aget_none_iff _ _).2 hk
  refine ⟨by simp [Get, hidx], by simp [Set, hidx], by simp [Delete, hidx], ?_, ?_⟩
  · intro m
    simp [Get, Set, Delete, SimpleLRU.new, aget]
  · intro m hm hfit
    have hR : Rep (SimpleLRU.new m) [] := Rep.new hm
    obtain ⟨a, s1, h1, -, -⟩ := Put_spec hR (k := k) (v := v) hfit
    obtain ⟨a2, s2, h2, -, -⟩ := PutIfAbsent_spec hR (k := k) (v := v) (by simp) hfit
    exact ⟨⟨s1, h1⟩, ⟨s2, h2⟩⟩

theorem C15_absent_key_and_empty_cache_witness :
    ['z'] ∉ indexKeys after5 ∧ Get after5 ['z'] ['o'] = .ok (false, ['o'], after5) ∧
      Set after5 ['z'] ['1'] = .ok (false, after5) ∧ Delete after5 ['z'] = .ok (false, after5) ∧
      (∃ s1, Put (SimpleLRU.new 10) ['z'] ['1'] = .ok (true, s1)) ∧
      ∃ s1, PutIfAbsent (SimpleLRU.new 10) ['z'] ['1'] = .ok (true, s1) :=
  have h := C15_absent_key_and_empty_cache after5 ['z'] ['1'] ['o'] (by decide)
  ⟨by decide, h.1, h.2.1, h.2.2.1, (h.2.2.2.2 10 (by norm_num) (by decide)).1,
    (h.2.2.2.2 10 (by norm_num) (by decide)).2⟩

/-- C16. `ProvideSpace(n)` on a well-formed cache returns, and returns true exactly when
`n <= max_size`. When it returns true, `max_size - current_size >= n` holds afterwards, the
list left is a prefix of the former one, and nothing at all has changed when the room was
there already. When it returns false the cache is left empty with `current_size == 0`. -/
theorem C16_provideSpace_postcondition (s : SimpleLRU) (n : Nat) (hwf : WellFormed s) :
    ∃ b s2, ProvideSpace s n = .ok (b, s2) ∧ (b = true ↔ n ≤ s.max_size) ∧
      WellFormed s2 ∧ s2.max_size = s.max_size ∧
      (b = true → n ≤ s2.max_size - s2.current_size ∧ entries s2 <+: entries s ∧
        (n ≤ s.max_size - s.current_size → s2 = s)) ∧
      (b = false → entries s2 = [] ∧ indexKeys s2 = [] ∧ s2.current_size = 0) := by
  obtain ⟨L, hR⟩ := hwf
  obtain ⟨b, s2, R, hpre, hRep, hm, hb, ht, hf, hps, -⟩ := ProvideSpace_exact hR n
  refine ⟨b, s2, hps, hb, ⟨R, hRep⟩, hm, ?_, ?_⟩
  · intro hbt
    have hn := hb.1 hbt
    refine ⟨?_, ?_, ?_⟩
    · have h1 := total_fit_le (s.max_size - n) L
      rw [← ht hbt, ← hRep.size] at h1
      omega
    · rw [hRep.entries, hR.entries]
      exact hpre.map _
    · intro hroom
      have h1 : ProvideSpace s n = .ok (true, s) := by
        unfold ProvideSpace
        apply ProvideSpace_loop_enough
        rw [sub64_eq hR.cap hR.word]
        omega
      rw [h1] at hps
      cases hps
      rfl
  · intro hbf
    have hnil := hf hbf
    subst hnil
    refine ⟨by rw [hRep.entries]; rfl, by unfold indexKeys; rw [hRep.index_nil]; rfl, ?_⟩
    rw [hRep.size]; rfl

theorem C16_provideSpace_postcondition_witness :
    WellFormed after5 ∧ ∃ b s2, ProvideSpace after5 4 = .ok (b, s2) ∧
      (b = true ↔ 4 ≤ after5.max_size) ∧ WellFormed s2 ∧ s2.max_size = after5.max_size ∧
      (b = true → 4 ≤ s2.max_size - s2.current_size ∧ entries s2 <+: entries after5 ∧
        (4 ≤ after5.max_size - after5.current_size → s2 = after5)) ∧
      (b = false → entries s2 = [] ∧ indexKeys s2 = [] ∧ s2.current_size = 0) :=
  ⟨after5_wf, C16_provideSpace_postcondition after5 4 after5_wf⟩

/-- C17. Head/tail and link consistency does not hold after every call of every sequence:
after `Put("a","b")` on an empty cache of capacity 2 head, tail and links are consistent;
then `Set("a","bc")` passes the check of `Set`, evicts the entry itself and dereferences
the null `_lru_head`. -/
theorem C17_links_set_fault :
    Put (SimpleLRU.new 2) ['a'] ['b'] = .ok (true, mini1) ∧ LinksOk mini1 ∧
      run (SimpleLRU.new 2) [.Put ['a'] ['b'], .Set ['a'] ['b', 'c']] = .error .null_deref := by
  obtain ⟨L, hR⟩ := mini1_wf
  have h : Set mini1 ['a'] ['b', 'c'] = .error .null_deref :=
    Set_fault mini1_wf (by decide) (by decide) (by decide)
  exact ⟨rfl, hR.links, by simp only [run, call, mini1_eq, h]⟩

/-- C18. The eviction loop terminates: on a well-formed cache, for every `n`,
`ProvideSpace(n)` returns; the loop is over after one call of `DeleteLruTail` more than
there are entries, whatever larger bound is given; the number of entries evicted is at
most the number of entries resident at the call, and the entries left are a prefix of the
former list. -/
theorem C18_eviction_loop_terminates (s : SimpleLRU) (n : Nat) (hwf : WellFormed s) :
    ∃ b s2, ProvideSpace s n = .ok (b, s2) ∧
      (∀ fuel, (entries s).length + 1 ≤ fuel → ProvideSpace_loop fuel s n = .ok (b, s2)) ∧
      (∀ fuel, evictions fuel s n ≤ (entries s).length) ∧
      entries s2 <+: entries s := by
  obtain ⟨L, hR⟩ := hwf
  obtain ⟨b, s2, R, hpre, hRep, hm, hb, ht, hf, hps, hfuel⟩ := ProvideSpace_exact hR n
  have hlen : (entries s).length = L.length := by rw [hR.entries]; simp
  refine ⟨b, s2, hps, ?_, ?_, ?_⟩
  · intro fuel hfu
    apply hfuel
    rw [hlen] at hfu
    split <;> omega
  · intro fuel
    rw [hlen]
    exact evictions_le n fuel L s hR
  · rw [hRep.entries, hR.entries]
    exact hpre.map _

theorem C18_eviction_loop_terminates_witness :
    WellFormed after5 ∧ ∃ b s2, ProvideSpace after5 20 = .ok (b, s2) ∧
      (∀ fuel, (entries after5).length + 1 ≤ fuel →
        ProvideSpace_loop fuel after5 20 = .ok (b, s2)) ∧
      (∀ fuel, evictions fuel after5 20 ≤ (entries after5).length) ∧
      entries s2 <+: entries after5 :=
  ⟨after5_wf, C18_eviction_loop_terminates after5 20 after5_wf⟩

/-- C19. The size update of the update path is exact. On a well-formed cache, for a
resident key `k` with stored value `old` and a new value `v` with
`len k + len v <= max_size`: in the state `s1` in which `Put` and `Set` execute
`_current_size -= old_len - new_len` (after `MoveNodeToHead` and the conditional
`ProvideSpace`), the `size_t` result is `current_size + new_len - old_len` as a natural
number, with `old_len <= current_size` and the result within `max_size`, also when
`new_len > old_len` and the difference `old_len - new_len` wraps; it is the
`current_size` that `Put` and `Set` leave. -/
theorem C19_size_update_exact (s : SimpleLRU) (k old v : Str) (hwf : WellFormed s)
    (hk : (k, old) ∈ entries s) (hfit : k.length + v.length ≤ s.max_size) :
    ∃ s0 s1 s2, discard (MoveNodeToHead s k) = .ok s0 ∧
      (if old.length < v.length then
          discard (ProvideSpace s0 (sub64 v.length old.length))
        else .ok s0 : Except Fault SimpleLRU) = .ok s1 ∧
      getValue s1 s1.lru_head = .ok old ∧
      sub64 s1.current_size (sub64 old.length v.length) =
        s1.current_size + v.length - old.length ∧
      old.length ≤ s1.current_size ∧
      s1.current_size + v.length - old.length ≤ s.max_size ∧
      (old.length < v.length → sub64 old.length v.length = old.length + 2 ^ 64 - v.length) ∧
      Put s k v = .ok (true, s2) ∧ Set s k v = .ok (true, s2) ∧
      s2.current_size = s1.current_size + v.length - old.length := by
  obtain ⟨L, hR⟩ := hwf
  obtain ⟨pre, c, post, rfl, rfl, rfl⟩ := mem_entries_split hR hk
  have hw := hR.word
  obtain ⟨s0, s1, s2, h0, h1, hv, hle, hc1, hres, hput, hcur⟩ := Put_present_trace hR hfit
  have hcap1 : s1.current_size < 2 ^ 64 := by omega
  have hex : sub64 s1.current_size (sub64 c.value.length v.length) =
      s1.current_size + v.length - c.value.length :=
    sub64_sub64 hle (by omega) (by omega) (by omega)
  have hidx := hR.idx (c := c) (by simp)
  refine ⟨s0, s1, s2, h0, h1, hv, hex, hle, hres, ?_, hput, ?_, by rw [hcur, hex]⟩
  · intro hlt
    exact sub64_wrap hlt (by omega)
  · rw [Set_eq_Put hidx hfit hw]; exact hput

theorem C19_size_update_exact_witness :
    WellFormed after1 ∧ (['a'], ['1']) ∈ entries after1 ∧
      ∃ s0 s1 s2, discard (MoveNodeToHead after1 ['a']) = .ok s0 ∧
        (if ['1'].length < ['1', '2', '3'].length then
            discard (ProvideSpace s0 (sub64 ['1', '2', '3'].length ['1'].length))
          else .ok s0 : Except Fault SimpleLRU) = .ok s1 ∧
        getValue s1 s1.lru_head = .ok ['1'] ∧
        sub64 s1.current_size (sub64 ['1'].length ['1', '2', '3'].length) =
          s1.current_size + ['1', '2', '3'].length - ['1'].length ∧
        ['1'].length ≤ s1.current_size ∧
        s1.current_size + ['1', '2', '3'].length - ['1'].length ≤ after1.max_size ∧
        (['1'].length < ['1', '2', '3'].length →
          sub64 ['1'].length ['1', '2', '3'].length =
            ['1'].length + 2 ^ 64 - ['1', '2', '3'].length) ∧
        Put after1 ['a'] ['1', '2', '3'] = .ok (true, s2) ∧
        Set after1 ['a'] ['1', '2', '3'] = .ok (true, s2) ∧
        s2.current_size = s1.current_size + ['1', '2', '3'].length - ['1'].length :=
  have hk : (['a'], ['1']) ∈ entries after1 := by rw [entries_after1]; decide
  ⟨after1_wf, hk, C19_size_update_exact after1 ['a'] ['1'] ['1', '2', '3'] after1_wf hk
    (by decide)⟩

end Backend
end Afina
